import Mathlib

/-!
Shallow embedding of `tetrys.py` (a curses Tetris with a heuristic AI player).

Conventions used throughout:
* the board `field` is a list of rows, row `0` being the floor (the source
  displays `reversed(self.field)`), each cell a `Nat` (`0` = empty,
  `1..7` = piece-type id);
* Python's list indexing (negative indices wrap once from the end,
  out-of-range raises `IndexError`) is modelled by `pyIdx`; a raised and
  uncaught exception is modelled by an `Option` result being `none`;
* Python `//` on ints is floor division, modelled by `Int.fdiv`;
* the in-place bit operations `|=` and `&= ~` on cells are modelled by
  `Nat.lor` and by bitwise and-not (`ldiff`);
* `random.shuffle` outcomes are modelled by an explicit stream
  `supply : Nat → Piece` of the pieces the generator will yield, consumed
  one at a time (`supply_idx`);
* the float `landing_height` and the AI score are modelled in `ℚ`
  (all values that actually occur are half-integers, exact in both).
-/

namespace Tetrys

abbrev Row := List Nat

abbrev Field := List Row

abbrev Piece := List (List Nat)

/-- The 7 tetromino shapes (`Pieces` in the source); nonzero cells of the
`k`-th shape carry the id `k+1`. -/
def Pieces : List Piece :=
  [[[1, 1, 1, 1]],
   [[2, 2], [2, 2]],
   [[3, 3, 3], [0, 3, 0]],
   [[4, 4, 0], [0, 4, 4]],
   [[0, 5, 5], [5, 5, 0]],
   [[6, 6, 6], [6, 0, 0]],
   [[7, 7, 7], [0, 0, 7]]]

/-- The `max_moves` dict of the source: per (piece type, rotation count),
the `(max_left_moves, max_right_moves)` bounds used by the AI. -/
def max_moves : List ((Nat × Nat) × (Nat × Nat)) :=
  [((1, 0), (3, 3)), ((1, 1), (4, 5)),
   ((2, 0), (4, 4)),
   ((3, 0), (3, 4)), ((3, 1), (3, 5)), ((3, 2), (3, 4)), ((3, 3), (3, 5)),
   ((4, 0), (3, 4)), ((4, 1), (3, 5)),
   ((5, 0), (3, 4)), ((5, 1), (3, 5)),
   ((6, 0), (3, 4)), ((6, 1), (3, 5)), ((6, 2), (2, 5)), ((6, 3), (3, 5)),
   ((7, 0), (3, 4)), ((7, 1), (3, 5)), ((7, 2), (2, 5)), ((7, 3), (3, 5))]

/-- Python `len(piece), len(piece[0])` (`get_piece_height_width`); every
piece the program builds is a nonempty rectangular matrix, for which this
is exact (`piece[0]` on an empty piece would raise, which never happens). -/
def get_piece_height_width (p : Piece) : Nat × Nat :=
  (p.length, (p.headD []).length)

/-- Length of the shortest row, `0` for no rows: the number of tuples
`zip(*rows)` produces. -/
def minLen : List (List Nat) → Nat
  | [] => 0
  | r :: rs => rs.foldl (fun m x => min m x.length) r.length

/-- Python `list(zip(*rows))`: truncating transpose.  For `idx < minLen rows`
every row has an `idx`-th entry, so `getD` is exact. -/
def zipStar (rows : List (List Nat)) : List (List Nat) :=
  (List.range (minLen rows)).map fun idx => rows.map fun r => r.getD idx 0

/-- `piece_rotate(piece) = list(zip(*reversed(piece)))`: reverse the row
order, then transpose. -/
def piece_rotate (p : Piece) : Piece :=
  zipStar p.reverse

/-- `piece[0][1]`, the cell both `get_max_rotations` and `get_max_moves`
use as the piece-type id; `none` models the `IndexError` raised when the
first row has fewer than two cells. -/
def pieceTypeId (p : Piece) : Option Nat :=
  (p.get? 0).bind fun r => r.get? 1

/-- `get_max_rotations`: 0 for the square, 1 for line/S/Z, 3 for T/L/J;
`none` models both the `IndexError` on reading `piece[0][1]` and the
`raise Exception` for an unknown type id. -/
def get_max_rotations (p : Piece) : Option Nat :=
  (pieceTypeId p).bind fun t =>
    if t = 2 then some 0
    else if t = 1 ∨ t = 4 ∨ t = 5 then some 1
    else if t = 3 ∨ t = 6 ∨ t = 7 then some 3
    else none

/-- `get_max_moves`: dict lookup in `max_moves`; `none` models a
`KeyError` (or the `IndexError` on `piece[0][1]`). -/
def get_max_moves (p : Piece) (rotation_count : Nat) : Option (Nat × Nat) :=
  (pieceTypeId p).bind fun t => max_moves.lookup (t, rotation_count)

/-- The gravity speed table `Speeds`. -/
def Speeds : List Nat :=
  [48, 45, 42, 39, 36, 33, 30, 27, 24, 21, 18, 15, 12, 10, 8, 6, 5, 4, 3, 2]

/-- Python list indexing: an index in `[0, n)` is used as is, an index in
`[-n, 0)` wraps once from the end, anything else raises `IndexError`. -/
def pyIdx (n : Nat) (i : Int) : Option Nat :=
  if 0 ≤ i ∧ i < (n : Int) then some i.toNat
  else if 0 ≤ i + (n : Int) ∧ i + (n : Int) < (n : Int) then some (i + (n : Int)).toNat
  else none

/-- `self.field[i][j]` with Python index semantics. -/
def getCell (F : Field) (i j : Int) : Option Nat := do
  let r ← pyIdx F.length i
  let row := F.getD r []
  let c ← pyIdx row.length j
  pure (row.getD c 0)

/-- `self.field[i][j] = v` with Python index semantics. -/
def setCell (F : Field) (i j : Int) (v : Nat) : Option Field := do
  let r ← pyIdx F.length i
  let row := F.getD r []
  let c ← pyIdx row.length j
  pure (F.set r (row.set c v))

/-- `piece[a][b]` (indices here are always nonnegative loop counters). -/
def pGet (p : Piece) (a b : Nat) : Option Nat :=
  (p.get? a).bind fun r => r.get? b

/-- `itertools.product(range(ph), range(pw))` in iteration order. -/
def productList (ph pw : Nat) : List (Nat × Nat) :=
  (List.range ph).flatMap fun a => (List.range pw).map fun b => (a, b)

/-- Bitwise and-not on `Nat`: Python's `c & ~v` for the nonnegative cell
values used by the board.  Since the bits of `a &&& b` are a subset of
the bits of `a`, clearing them is the subtraction `a - (a &&& b)`, which
is exactly `a AND (NOT b)`. -/
def ldiff (a b : Nat) : Nat :=
  a - Nat.land a b

/-- One read-modify-write pass `field[a+i][b+j] = f field[a+i][b+j] piece[a][b]`
over a list of piece coordinates, in loop order; `none` models an uncaught
`IndexError` at any access. -/
def opFold (f : Nat → Nat → Nat) (p : Piece) (i j : Int)
    (L : List (Nat × Nat)) (F : Field) : Option Field :=
  L.foldlM (fun F ab => do
      let v ← pGet p ab.1 ab.2
      let c ← getCell F (i + ab.1) (j + ab.2)
      setCell F (i + ab.1) (j + ab.2) (f c v)) F

/-- The validation phase of `add_p`: the column-bound test
`j < 0 or j + pw > self.width`, then, for every nonzero piece cell, the
occupancy test on the (Python-indexed) board cell, a caught `IndexError`
counting as failure.  Python returns `False` at the first offending cell;
the boolean outcome is the same as this conjunction over all cells. -/
def add_check (F : Field) (width : Nat) (p : Piece) (i j : Int) : Bool :=
  let pw := (get_piece_height_width p).2
  if j < 0 ∨ j + (pw : Int) > (width : Int) then false
  else
    (productList (get_piece_height_width p).1 pw).all fun ab =>
      match pGet p ab.1 ab.2 with
      | none => false
      | some 0 => true
      | some _ =>
        match getCell F (i + ab.1) (j + ab.2) with
        | none => false
        | some c => c = 0

/-- The mutation phase of `add_p`: `field[_i+i][_j+j] |= piece[_i][_j]`
over all piece coordinates (this loop has no `try`, so `none` is a crash). -/
def add_write (F : Field) (p : Piece) (i j : Int) : Option Field :=
  opFold Nat.lor p i j
    (productList (get_piece_height_width p).1 (get_piece_height_width p).2) F

/-- `remove_p`: `field[_i+i][_j+j] &= ~piece[_i][_j]` over all piece
coordinates (no `try`: `none` is a crash). -/
def remove_write (F : Field) (p : Piece) (i j : Int) : Option Field :=
  opFold ldiff p i j
    (productList (get_piece_height_width p).1 (get_piece_height_width p).2) F

/-- The side buffer filled by `save_state` (one `save_*` attribute per
mutable engine field; the grid is copied row-wise). -/
structure Saved where
  field : Field
  lines : Nat
  level : Nat
  score : Nat
  current_piece : Piece × Int × Int
  next_piece : Piece
  piece_index : Nat
  pieces_placed : Nat
  hoff : Nat
  woff : Nat
  cleared : Nat
  landing_height : ℚ
  drop_bonus : Nat
  continues : Bool

/-- The mutable state of a `Tetris` object.  `current_piece` is the
`(shape, row, col)` triple (`None` before the first spawn is modelled by
the empty shape); `supply`/`supply_idx` model the shuffled stream the
`gen_p` generator will yield. -/
structure TState where
  height : Nat
  width : Nat
  field : Field
  lines : Nat
  level : Nat
  score : Nat
  pieces_placed : Nat
  current_piece : Piece × Int × Int
  next_piece : Piece
  piece_index : Nat
  hoff : Nat
  woff : Nat
  cleared : Nat
  landing_height : ℚ
  drop_bonus : Nat
  continues : Bool
  supply : Nat → Piece
  supply_idx : Nat
  saved : Option Saved

/-- `save_state`: deep-copy every mutable field into the `save_*` buffer
(rows are copied; cell values are ints, so a row-wise copy is a deep copy). -/
def save_state (s : TState) : TState :=
  { s with saved := some (Saved.mk s.field s.lines s.level s.score
      s.current_piece s.next_piece s.piece_index s.pieces_placed
      s.hoff s.woff s.cleared s.landing_height s.drop_bonus s.continues) }

/-- `load_state`: copy the buffer back; `none` models the `AttributeError`
raised when no `save_state` ever ran. -/
def load_state (s : TState) : Option TState :=
  s.saved.map fun sv =>
    { s with
      field := sv.field, lines := sv.lines, level := sv.level,
      score := sv.score, current_piece := sv.current_piece,
      next_piece := sv.next_piece, piece_index := sv.piece_index,
      pieces_placed := sv.pieces_placed, hoff := sv.hoff, woff := sv.woff,
      cleared := sv.cleared, landing_height := sv.landing_height,
      drop_bonus := sv.drop_bonus, continues := sv.continues }

/-- `add_p(piece, i, j)`: validate, and on success write the piece's cells
and adopt it as `current_piece`, returning `True`; on a failed validation
the board is untouched and the result is `False`.  `none` models a crash
in the (uncaught) write loop. -/
def add_p (s : TState) (p : Piece) (i j : Int) : Option (TState × Bool) :=
  if add_check s.field s.width p i j then
    (add_write s.field p i j).map fun F =>
      ({ s with field := F, current_piece := (p, i, j) }, true)
  else some (s, false)

/-- `remove_p(piece, i, j)` as a state update. -/
def remove_p (s : TState) (p : Piece) (i j : Int) : Option TState :=
  (remove_write s.field p i j).map fun F => { s with field := F }

/-- `record_landing_height`: `landing_height = i + ph / 2.0` read off the
current `current_piece`. -/
def record_landing_height (s : TState) : TState :=
  { s with landing_height :=
      (s.current_piece.2.1 : ℚ) + (s.current_piece.1.length : ℚ) / 2 }

/-- `rowFull r` is Python's `all(self.field[i])`: every cell truthy (and
`True` on an empty row, as `all([])` is). -/
def rowFull (r : Row) : Bool :=
  r.all fun c => c ≠ 0

/-- The shift performed when row `i` clears: rows above move down one, the
top row is zero-filled.  For a field of `height` rows (the engine
invariant) this take/drop form is exactly the source's assignment loop
`for j in range(i, h-1): field[j] = field[j+1]; field[h-1] = [0]*width`. -/
def removeRowAt (F : Field) (i : Nat) (width : Nat) : Field :=
  F.take i ++ F.drop (i + 1) ++ [List.replicate width 0]

/-- One pass of `for i in range(self.height)`: clear each full row met,
continuing at the next index on the shifted field; returns the field and
the number of rows cleared by this pass (`redo` is that number being
nonzero). -/
def clearScan (height width : Nat) : Nat → Field → Nat → Field × Nat
  | i, F, c =>
    if h : i < height then
      if rowFull (F.getD i []) then
        clearScan height width (i + 1) (removeRowAt F i width) (c + 1)
      else
        clearScan height width (i + 1) F c
    else (F, c)
termination_by i _F _c => height - i

/-- The `while redo` loop: rescan until a pass clears nothing.  Python
iterates unboundedly; `fuel` bounds the number of passes and `none` models
non-termination (with `width = 0` the loop really never ends), which never
happens for the fuel the engine passes. -/
def clearLoop (height width : Nat) : Nat → Field → Nat → Option (Field × Nat)
  | 0, _, _ => none
  | fuel + 1, F, c =>
    let fc := clearScan height width 0 F 0
    if fc.2 = 0 then some (F, c)
    else clearLoop height width fuel fc.1 (c + fc.2)

/-- Lines 210-234 of `new_p`: the line-clear-and-score pass.  Scan and
clear until stable, bump `level` when `lines` crosses a multiple of 10
(capped at `len(Speeds) - 1`), add the cleared lines, add
`[0,40,100,300,1200][cleared] * (level+1) + drop_bonus` to the score
(`none` models the `IndexError` for more than 4 cleared rows), zero the
drop bonus and the rotation parity counters. -/
def clear_and_score (s : TState) : Option TState := do
  let fc ← clearLoop s.height s.width (s.height + 1) s.field 0
  let lvl := if (s.lines + fc.2) / 10 > s.lines / 10
    then min (s.level + 1) (Speeds.length - 1) else s.level
  let base ← [0, 40, 100, 300, 1200].get? fc.2
  pure { s with
    field := fc.1, cleared := fc.2,
    level := lvl, lines := s.lines + fc.2,
    score := s.score + base * (lvl + 1) + s.drop_bonus,
    drop_bonus := 0, hoff := 0, woff := 0 }

/-- Lines 236-244 of `new_p`: promote `next_piece`, draw a fresh one from
the generator, and add it bottom-aligned (`height - ph`) and centered
(`(width - pw) // 2`); a failed add sets `continues = False`. -/
def spawn_step (s : TState) : Option TState :=
  let piece := s.next_piece
  let s1 := { s with next_piece := s.supply s.supply_idx,
                     supply_idx := s.supply_idx + 1 }
  let hw := get_piece_height_width piece
  (add_p s1 piece ((s1.height : Int) - hw.1)
      (Int.fdiv ((s1.width : Int) - (hw.2 : Int)) 2)).map fun tb =>
    if tb.2 then tb.1 else { tb.1 with continues := false }

/-- `new_p`: clear-and-score, then spawn. -/
def new_p (s : TState) : Option TState :=
  (clear_and_score s).bind spawn_step

/-- `tick(add_next_piece)`: try to move the active piece down one row; on
failure (row 0 or collision) restore it, record the landing height, and
spawn only if asked; returns whether the piece came to rest.  Note the
whole attempt, including `record_landing_height`, sits inside `if i > 0`. -/
def tick (s : TState) (add_next_piece : Bool) : Option (TState × Bool) :=
  let pij := s.current_piece
  if pij.2.1 > 0 then do
    let s1 ← remove_p s pij.1 pij.2.1 pij.2.2
    let tb ← add_p s1 pij.1 (pij.2.1 - 1) pij.2.2
    if tb.2 then
      pure (record_landing_height tb.1, false)
    else do
      let tb2 ← add_p s1 pij.1 pij.2.1 pij.2.2
      let s2 := record_landing_height tb2.1
      if add_next_piece then (new_p s2).map fun t => (t, true)
      else pure (s2, true)
  else
    if add_next_piece then (new_p s).map fun t => (t, true)
    else some (s, true)

/-- `left()`: remove, try one column left, else restore. -/
def left (s : TState) : Option (TState × Bool) := do
  let pij := s.current_piece
  let s1 ← remove_p s pij.1 pij.2.1 pij.2.2
  let tb ← add_p s1 pij.1 pij.2.1 (pij.2.2 - 1)
  if tb.2 then pure (tb.1, true)
  else (add_p s1 pij.1 pij.2.1 pij.2.2).map fun tb2 => (tb2.1, false)

/-- `right()`: remove, try one column right, else restore. -/
def right (s : TState) : Option (TState × Bool) := do
  let pij := s.current_piece
  let s1 ← remove_p s pij.1 pij.2.1 pij.2.2
  let tb ← add_p s1 pij.1 pij.2.1 (pij.2.2 + 1)
  if tb.2 then pure (tb.1, true)
  else (add_p s1 pij.1 pij.2.1 pij.2.2).map fun tb2 => (tb2.1, false)

/-- `rotate()`: remove, try the rotated shape at the parity-adjusted
offset `(i + (oh-nh+hoff%2)//2, j + (ow-nw+woff%2)//2)` (Python floor
division), on success advance the parity counters by the new shape's
height/width parity, else restore. -/
def rotate (s : TState) : Option (TState × Bool) := do
  let pij := s.current_piece
  let s1 ← remove_p s pij.1 pij.2.1 pij.2.2
  let ohw := get_piece_height_width pij.1
  let rot := piece_rotate pij.1
  let nhw := get_piece_height_width rot
  let tb ← add_p s1 rot
    (pij.2.1 + Int.fdiv ((ohw.1 : Int) - (nhw.1 : Int) + ((s.hoff % 2 : Nat) : Int)) 2)
    (pij.2.2 + Int.fdiv ((ohw.2 : Int) - (nhw.2 : Int) + ((s.woff % 2 : Nat) : Int)) 2)
  if tb.2 then
    pure ({ tb.1 with hoff := tb.1.hoff + nhw.1 % 2,
                      woff := tb.1.woff + nhw.2 % 2 }, true)
  else (add_p s1 pij.1 pij.2.1 pij.2.2).map fun tb2 => (tb2.1, false)

/-- `down(add_next_piece)` (the soft drop): count one drop bonus, then
delegate to `tick`. -/
def down (s : TState) (add_next_piece : Bool) : Option (TState × Bool) :=
  tick { s with drop_bonus := s.drop_bonus + 1 } add_next_piece

/-- `while not self.down(False): pass` — the hard drop as both the AI
trial and the `DROP` key handler perform it (`fuel` bounds the number of
iterations; the loop always rests within `height + 1` calls). -/
def hard_drop : Nat → TState → Option TState
  | 0, _ => none
  | fuel + 1, s => do
    let tb ← down s false
    if tb.2 then pure tb.1 else hard_drop fuel tb.1

/-- Repeatedly `tick(False)` until it reports rest: the iteration the
spec's `hardDrop()` describes, for comparison with `hard_drop`. -/
def tick_until_rest : Nat → TState → Option TState
  | 0, _ => none
  | fuel + 1, s => do
    let tb ← tick s false
    if tb.2 then pure tb.1 else tick_until_rest fuel tb.1

/-- `get_field_by_column`: the board as one list per column.  The source
iterates `reversed(self.field)`, so each column list runs from the top row
down to the floor; the CPython-2 dict it builds iterates its small-int
keys in ascending order, giving the columns in index order `0..width-1`. -/
def get_field_by_column (s : TState) : List (List Nat) :=
  (List.range s.width).map fun c => s.field.reverse.map fun row => row.getD c 0

/-- The transition counter shared by `get_row_transitions` and
`get_col_transitions`: one count whenever a cell's truthiness differs from
`prev_block`, which then tracks the cell. -/
def transFrom (prev : Bool) : List Nat → Nat
  | [] => 0
  | c :: rest =>
    (if (decide (c ≠ 0)) = prev then 0 else 1) + transFrom (decide (c ≠ 0)) rest

/-- `get_col_transitions(data)`: scan every column with `prev_block`
starting (and reset between columns) at `True`; no end-of-column term. -/
def get_col_transitions (data : List (List Nat)) : Nat :=
  data.foldl (fun acc col => acc + transFrom true col) 0

/-- `get_holes(data)`: per column, count the empty cells lying after the
first occupied cell in scan order. -/
def holesCol (found : Bool) : List Nat → Nat
  | [] => 0
  | c :: rest =>
    if c ≠ 0 then holesCol true rest
    else (if found then 1 else 0) + holesCol found rest

/-- `get_holes(data)` summed over the columns. -/
def get_holes (data : List (List Nat)) : Nat :=
  data.foldl (fun acc col => acc + holesCol false col) 0

/-- `get_row_transitions`: scan each row of `reversed(field)` with
`prev_block` starting at `True`, plus one extra count when the row's last
cell is empty (the source reads the leaked loop variable `block`; rows are
nonempty for any engine-built board, where this is the last cell). -/
def get_row_transitions (s : TState) : Nat :=
  s.field.reverse.foldl
    (fun acc row => acc + transFrom true row + (if row.getLastD 1 ≠ 0 then 0 else 1)) 0

/-- The index at which `get_well_sums` stops scanning a column: the first
cell that is occupied or — nothing having been found — sits at row index
`height - 1`; `none` when the loop falls through without triggering. -/
def stopIdxAux (height : Nat) : Nat → List Nat → Option Nat
  | _, [] => none
  | k, c :: rest =>
    if c ≠ 0 ∨ k = height - 1 then some k else stopIdxAux height (k + 1) rest

/-- One column's well count in `get_well_sums`: among the rows strictly
above the stop index, those whose single neighbour (for the two border
columns) or both neighbours (middle columns) are occupied; `none` models
the `IndexError` of `data[column_index + 1]` on a one-column board. -/
def wellCount (height width : Nat) (data : List (List Nat)) (ci : Nat)
    (col : List Nat) : Option Nat :=
  match stopIdxAux height 0 col with
  | none => some 0
  | some ridx =>
    if ci = 0 then
      (data.get? (ci + 1)).map fun nextCol =>
        (nextCol.take ridx).countP fun c => c ≠ 0
    else if ci = width - 1 then
      (data.get? (ci - 1)).map fun prevCol =>
        (prevCol.take ridx).countP fun c => c ≠ 0
    else
      (data.get? (ci - 1)).bind fun prevCol =>
        (data.get? (ci + 1)).map fun nextCol =>
          ((prevCol.zip nextCol).take ridx).countP fun pn => pn.1 ≠ 0 ∧ pn.2 ≠ 0

/-- `get_well_sums(data)`: a well of depth `n` contributes
`n * (n + 1) / 2.0`; summed over the columns. -/
def get_well_sums (height width : Nat) (data : List (List Nat)) : Option ℚ :=
  (data.enum.foldlM
    (fun acc cicol => (wellCount height width data cicol.1 cicol.2).map fun wc =>
      acc + (if wc ≠ 0 then ((wc : ℚ) * ((wc : ℚ) + 1)) / 2 else 0)) 0)

/-- `get_ai_score`: the fixed linear model over the extracted features
(the source's float coefficients are decimal literals, modelled by the
exact same decimal rationals). -/
def get_ai_score (s : TState) : Option ℚ :=
  let data := get_field_by_column s
  (get_well_sums s.height s.width data).map fun ws =>
    s.landing_height * -(4.500158825082766 : ℚ) +
    (s.cleared : ℚ) * (3.4181268101392694 : ℚ) +
    (get_row_transitions s : ℚ) * -(3.2178882868487753 : ℚ) +
    (get_col_transitions data : ℚ) * -(9.348695305445199 : ℚ) +
    (get_holes data : ℚ) * -(7.899265427351652 : ℚ) +
    ws * -(3.3855972247263626 : ℚ)

/-- The move alphabet the AI emits: the four curses arrow keys plus the
`DROP` marker. -/
inductive Move where
  | up
  | dn
  | lf
  | rg
  | dropAll
deriving DecidableEq, Repr

/-- The move list `get_ai_score_for_moves` accumulates for the sequence
`(rotation_count, left_move_count, right_move_count)`: a `KEY_DOWN`, the
rotations, the horizontal moves (each appended whether or not the board
op succeeded) and the final `DROP`. -/
def buildMoves (rc lc rr : Nat) : List Move :=
  [Move.dn] ++ List.replicate rc Move.up ++ List.replicate lc Move.lf ++
    List.replicate rr Move.rg ++ [Move.dropAll]

/-- `for x in range(rotation_count): self.rotate()` (results ignored). -/
def runRotates : Nat → TState → Option TState
  | 0, s => some s
  | n + 1, s => (rotate s).bind fun tb => runRotates n tb.1

/-- `for x in range(left_move_count): self.left()` (results ignored). -/
def runLefts : Nat → TState → Option TState
  | 0, s => some s
  | n + 1, s => (left s).bind fun tb => runLefts n tb.1

/-- `for x in range(right_move_count): self.right()` (results ignored). -/
def runRights : Nat → TState → Option TState
  | 0, s => some s
  | n + 1, s => (right s).bind fun tb => runRights n tb.1

/-- `get_ai_score_for_moves(moves_sequence)`: restore the snapshot, soft
drop once for rotation clearance, rotate/left/right as prescribed, hard
drop, and score the resulting board; returns the score, the move list and
the mutated trial state. -/
def get_ai_score_for_moves (s : TState) (seq : Nat × Nat × Nat) :
    Option (ℚ × List Move × TState) := do
  let s0 ← load_state s
  let tb ← down s0 false
  let s1 ← runRotates seq.1 tb.1
  let s2 ← runLefts seq.2.1 s1
  let s3 ← runRights seq.2.2 s2
  let s4 ← hard_drop (s3.height + 1) s3
  let sc ← get_ai_score s4
  pure (sc, buildMoves seq.1 seq.2.1 seq.2.2, s4)

/-- The candidate sequences `ai_next_moves` enumerates: for each rotation
count up to `get_max_rotations`, the pure-left sweeps `(r, l, 0)` for
`l ≤ maxLeft` and then the pure-right sweeps `(r, 0, rr)` for
`rr ≤ maxRight`. -/
def movesToTry (p : Piece) : Option (List (Nat × Nat × Nat)) :=
  (get_max_rotations p).bind fun mr =>
    (List.range (mr + 1)).foldlM
      (fun acc rc => (get_max_moves p rc).map fun lr =>
        acc ++ ((List.range (lr.1 + 1)).map fun l => (rc, l, 0))
            ++ ((List.range (lr.2 + 1)).map fun r => (rc, 0, r))) []

/-- The best-candidate accumulator of `ai_next_moves`: take a strictly
higher score, or an equal score with a strictly shorter move list. -/
def pickBest (acc : Option ℚ × List Move) (sc : ℚ) (mv : List Move) :
    Option ℚ × List Move :=
  match acc.1 with
  | none => (some sc, mv)
  | some b =>
    if sc > b then (some sc, mv)
    else if sc = b ∧ mv.length < acc.2.length then (some sc, mv)
    else (some b, acc.2)

/-- `ai_next_moves`: snapshot, score every candidate sequence, and return
the winning move list after a final restore.  `none` models both an
uncaught error inside a trial and the fatal
`raise Exception("no best_score_moves")` branch. -/
def ai_next_moves (s : TState) : Option (List Move × TState) := do
  let s0 := save_state s
  let mt ← movesToTry s0.current_piece.1
  let acc ← mt.foldlM
    (fun (acc : (Option ℚ × List Move) × TState) seq => do
      let r ← get_ai_score_for_moves acc.2 seq
      pure (pickBest acc.1 r.1 r.2.1, r.2.2))
    ((none, []), s0)
  if acc.1.2 = [] then none
  else (load_state acc.2).map fun t => (acc.1.2, t)

/-- The column-transition count exactly as the specification words it:
scan each column bottom-to-top (row 0 is the floor) with an implicit
occupied boundary at the bottom only, the top end open; summed over the
columns.  Stated from the spec, for comparison with the source's
`get_col_transitions`. -/
def col_transitions_claim (s : TState) : Nat :=
  (List.range s.width).foldl
    (fun acc c => acc + transFrom true (s.field.map fun row => row.getD c 0)) 0

/-- Adjacent-pair disagreement count of a Boolean sequence (used to state
the corrected column-transition formula). -/
def changes : List Bool → Nat
  | [] => 0
  | [_] => 0
  | a :: b :: rest => (if a = b then 0 else 1) + changes (b :: rest)

/-- The draw stream of the shuffle-bag generator `gen_p`: `bags k` is the
order `random.shuffle` left the 7 pieces in for cycle `k`, and draw `n`
is the `n % 7`-th piece of cycle `n / 7`. -/
def bagDraws (bags : Nat → List Piece) (n : Nat) : Piece :=
  (bags (n / 7)).getD (n % 7) []

/-- The state of a freshly constructed `Tetris(height, width)` after
`start` assigned `next_piece = next(gen_p)`, just before its `new_p()`
call (`current_piece` is still `None`, modelled by the empty shape). -/
def init_state (height width : Nat) (supply : Nat → Piece) : TState :=
  { height := height, width := width,
    field := List.replicate height (List.replicate width 0),
    lines := 0, level := 0, score := 0, pieces_placed := 0,
    current_piece := ([], 0, 0), next_piece := supply 0, piece_index := 0,
    hoff := 0, woff := 0, cleared := 0, landing_height := 0,
    drop_bonus := 0, continues := true, supply := supply, supply_idx := 1,
    saved := none }

/-- One public Board Engine operation (spec §4.2): the two horizontal
moves, the rotation, the gravity tick, the soft drop (each with or
without piece advancement) and the spawn itself.  The Snapshot Manager's
`save_state`/`load_state` belong to a different component (§4.3) and are
not engine operations. -/
inductive EngineOp where
  | mvLeft
  | mvRight
  | mvRotate
  | opTick (adv : Bool)
  | opDown (adv : Bool)
  | opSpawn

/-- The state an operation leaves behind (`none` = the operation raised). -/
def stepResult (op : EngineOp) (s : TState) : Option TState :=
  match op with
  | .mvLeft => (left s).map (·.1)
  | .mvRight => (right s).map (·.1)
  | .mvRotate => (rotate s).map (·.1)
  | .opTick a => (tick s a).map (·.1)
  | .opDown a => (down s a).map (·.1)
  | .opSpawn => new_p s

/-- One engine step: some operation, run from a still-live state (the
main loop stops once `continues` is false), that completed. -/
def Step (s t : TState) : Prop :=
  s.continues = true ∧ ∃ op, stepResult op s = some t

/-- All states an engine can be driven to through engine operations. -/
def Reach : TState → TState → Prop := Relation.ReflTransGen Step

/-- A concrete engine state around an explicit board and active piece,
used for the concrete checks below. -/
def mkState (height width : Nat) (field : Field) (cur : Piece × Int × Int) : TState :=
  { height := height, width := width, field := field,
    lines := 0, level := 0, score := 0, pieces_placed := 0,
    current_piece := cur, next_piece := [[2, 2], [2, 2]], piece_index := 0,
    hoff := 0, woff := 0, cleared := 0, landing_height := 99,
    drop_bonus := 0, continues := true, supply := fun _ => [[2, 2], [2, 2]],
    supply_idx := 0, saved := none }

/-- A 6×4 board carrying the horizontal I piece on the floor row. -/
def cexRotate : TState :=
  mkState 6 4 [[1, 1, 1, 1], [0, 0, 0, 0], [0, 0, 0, 0],
               [0, 0, 0, 0], [0, 0, 0, 0], [0, 0, 0, 0]] ([[1, 1, 1, 1]], 0, 0)

/-- The state `rotate` leaves behind on `cexRotate` (its adopted row
offset is negative: the vertical I wrapped around the board top). -/
def cexRotateOut : TState :=
  ((rotate cexRotate).getD (cexRotate, false)).1

/-- A 2-row, 1-column board: floor cell occupied, top cell empty. -/
def cexCol : TState :=
  mkState 2 1 [[1], [0]] ([[1]], 0, 0)

/-- A 4-row, 1-column board with a lone cell piece at the top. -/
def cexDrop : TState :=
  mkState 4 1 [[0], [0], [0], [7]] ([[7]], 3, 0)

/-- A 3×2 board whose floor row is full, with 9 lines already cleared
and 5 pending drop-bonus points. -/
def cexClear : TState :=
  { mkState 3 2 [[1, 1], [0, 1], [0, 0]] ([[1]], 1, 1) with
      lines := 9, drop_bonus := 5 }

/-- The state the `tick(False)` iteration reaches from `cexDrop`. -/
def cexDropOut : TState := (tick_until_rest 5 cexDrop).getD cexDrop

/-- Shapes the engine actually handles: a nonempty rectangle with a
nonzero cell in every row and in every column.  All 7 catalog pieces are
good, and rotation preserves goodness. -/
def goodPieceB (p : Piece) : Bool :=
  decide (0 < p.length) &&
  p.all (fun r => r.length == (p.headD []).length && r.any fun c => c ≠ 0) &&
  (List.range (p.headD []).length).all fun b => p.any fun r => r.getD b 0 ≠ 0

/-- The active piece is addressably placed: the board is a
`height × width` grid, the shape is good, each piece row maps to a legal
(possibly wrapped) board row, and the column window sits inside the
board.  Every state the engine reaches in live play satisfies this; it
is exactly what keeps the un-`try`-guarded write loops from raising. -/
def Placed (s : TState) : Bool :=
  s.field.length == s.height &&
  s.field.all (fun r => r.length == s.width) &&
  goodPieceB s.current_piece.1 &&
  (List.range s.current_piece.1.length).all
    (fun a => (pyIdx s.height (s.current_piece.2.1 + a)).isSome) &&
  decide (0 ≤ s.current_piece.2.2) &&
  decide (s.current_piece.2.2 +
    ((get_piece_height_width s.current_piece.1).2 : Int) ≤ (s.width : Int))

/-- The engine fields no in-play move (without a spawn) ever changes:
board dimensions, the snapshot buffer and the piece stream position. -/
def Untouched (s t : TState) : Prop :=
  t.height = s.height ∧ t.width = s.width ∧ t.saved = s.saved ∧
  t.supply = s.supply ∧ t.supply_idx = s.supply_idx

/-- What a passed `add_p` validation guarantees for a placement
`(p, i, j)` on the board `F` of a width-`w` engine: the column window
fits, and every nonzero piece cell maps — under Python index semantics,
where row offsets in `[-height, 0)` wrap to the top of the board — to an
existing empty cell.  There is no constraint `0 ≤ i` at all. -/
def placement_ok (F : Field) (w : Nat) (p : Piece) (i j : Int) : Prop :=
  0 ≤ j ∧ j + ((get_piece_height_width p).2 : Int) ≤ (w : Int) ∧
  ∀ a b : Nat, a < (get_piece_height_width p).1 → b < (get_piece_height_width p).2 →
    ∀ v, pGet p a b = some v → v ≠ 0 → getCell F (i + a) (j + b) = some 0

/-- A shuffle-outcome stream for `gen_p`: the catalog order once, then
the reversed order forever. -/
def cexBags : Nat → List Piece := fun k => if k = 0 then Pieces else Pieces.reverse

/-- A 4×4 board carrying the square piece near the floor, used to run the
AI-search theorem on a concrete state. -/
def cexAI : TState :=
  mkState 4 4 [[0, 0, 0, 0], [0, 0, 0, 0], [0, 2, 2, 0], [0, 2, 2, 0]]
    ([[2, 2], [2, 2]], 2, 1)

end Tetrys

namespace Tetrys

/-! ## Small list lemmas -/

theorem foldl_add_eq_sum {α : Type} (f : α → Nat) (L : List α) :
    ∀ n : Nat, L.foldl (fun acc x => acc + f x) n = n + (L.map f).sum := by
  induction L with
  | nil => intro n; simp
  | cons a L ih => intro n; simp [List.foldl_cons, ih, Nat.add_assoc]

/-! ## C4: four rotations are the identity on the catalog -/

/-- C4: for each of the 7 catalog pieces, applying the rotation transform
(reverse the row order, then transpose) four successive times yields a
shape equal by value to the original piece matrix. -/
theorem c4_four_rotations_identity :
    Pieces.map
      (fun p => piece_rotate (piece_rotate (piece_rotate (piece_rotate p)))) =
      Pieces := by
  decide

/-! ## C5: save/load round trip -/

/-- C5: for every engine state, `save_state` then `load_state` with no
intervening mutation succeeds and leaves the board cells, active piece,
next piece, progress state (lines, level, score, pieces placed, drop
bonus, landing height), parity counters and continuation flag equal to
the pre-save state.  (Cell storage is copied row-wise in the source; in
this value-level model the restored board is the very same value.) -/
theorem c5_save_load_roundtrip (s : TState) :
    ∃ t, load_state (save_state s) = some t ∧
      t.field = s.field ∧ t.current_piece = s.current_piece ∧
      t.next_piece = s.next_piece ∧ t.lines = s.lines ∧ t.level = s.level ∧
      t.score = s.score ∧ t.pieces_placed = s.pieces_placed ∧
      t.drop_bonus = s.drop_bonus ∧ t.landing_height = s.landing_height ∧
      t.hoff = s.hoff ∧ t.woff = s.woff ∧ t.continues = s.continues := by
  exact ⟨_, rfl, rfl, rfl, rfl, rfl, rfl, rfl, rfl, rfl, rfl, rfl, rfl, rfl⟩

/-! ## C2: tick with the active piece already at row 0 -/

theorem add_p_landing (s : TState) (p : Piece) (i j : Int) (t : TState) (b : Bool)
    (h : add_p s p i j = some (t, b)) : t.landing_height = s.landing_height := by
  unfold add_p at h
  split at h
  · rw [Option.map_eq_some'] at h
    obtain ⟨F, -, hF⟩ := h
    obtain ⟨ht, -⟩ := Prod.mk.injEq .. ▸ hF
    subst ht
    rfl
  · obtain ⟨ht, -⟩ := Prod.mk.injEq .. ▸ (Option.some.injEq .. ▸ h)
    subst ht
    rfl

theorem clear_and_score_landing (s t : TState) (h : clear_and_score s = some t) :
    t.landing_height = s.landing_height := by
  unfold clear_and_score at h
  rw [Option.bind_eq_bind, Option.bind_eq_some] at h
  obtain ⟨fc, -, h⟩ := h
  rw [Option.bind_eq_bind, Option.bind_eq_some] at h
  obtain ⟨base, -, h⟩ := h
  obtain ht := Option.some.injEq .. ▸ h
  subst ht
  rfl

theorem spawn_step_landing (s t : TState) (h : spawn_step s = some t) :
    t.landing_height = s.landing_height := by
  unfold spawn_step at h
  rw [Option.map_eq_some'] at h
  obtain ⟨tb, ha, ht⟩ := h
  have hl := add_p_landing _ _ _ _ tb.1 tb.2 ha
  subst ht
  split <;> exact hl

theorem new_p_landing (s t : TState) (h : new_p s = some t) :
    t.landing_height = s.landing_height := by
  unfold new_p at h
  rw [Option.bind_eq_some] at h
  obtain ⟨m, hc, hsp⟩ := h
  rw [spawn_step_landing m t hsp]
  exact clear_and_score_landing s m hc

/-- C2 counterexample: on `cexRotate` the active piece sits at row 0 and
the stored landing height is 99; `tick(False)` returns rest but leaves it
at 99 instead of recording row + height/2 = 1/2 as the claim requires. -/
theorem c2_counterexample :
    (tick cexRotate false).map (fun tb => (tb.2, tb.1.landing_height)) =
      some (true, 99) ∧
    (99 : ℚ) ≠ ((0 : ℚ) + (cexRotate.current_piece.1.length : ℚ) / 2) := by
  refine ⟨rfl, ?_⟩
  norm_num [cexRotate, mkState]

/-- C2 (amended): for every state whose active piece sits at row 0,
`tick(advance)` makes no attempt to move the piece down, spawns a new
piece if and only if `advance` is set, and returns `True` — but it does
NOT record the landing height: `record_landing_height` sits inside the
`if i > 0` branch, so `landing_height` keeps whatever value the last
successful descent gave it (and `new_p` never modifies it either). -/
theorem c2_tick_at_row_zero (s : TState) (adv : Bool)
    (h : s.current_piece.2.1 = 0) :
    tick s adv = (if adv then new_p s else some s).map (fun t => (t, true)) ∧
    ∀ t, new_p s = some t → t.landing_height = s.landing_height := by
  constructor
  · unfold tick
    simp only [h]
    cases adv <;> simp
  · intro t ht
    exact new_p_landing s t ht

/-- C2 witness: the amended theorem applied to the concrete row-0 state
`cexRotate` with `advance = true`. -/
theorem c2_witness :
    tick cexRotate true =
      (if true then new_p cexRotate else some cexRotate).map (fun t => (t, true)) ∧
    ∀ t, new_p cexRotate = some t → t.landing_height = cexRotate.landing_height :=
  c2_tick_at_row_zero cexRotate true rfl

/-! ## C7: the column-transition feature -/

theorem transFrom_eq_changes (l : List Nat) :
    ∀ prev : Bool, transFrom prev l = changes (prev :: l.map fun c => decide (c ≠ 0)) := by
  induction l with
  | nil => intro prev; simp [transFrom, changes]
  | cons c rest ih =>
    intro prev
    simp only [transFrom, List.map_cons, changes, ih]
    by_cases hc : c = 0 <;> cases prev <;> simp [hc]

theorem changes_append_last (l : List Bool) (a : Bool) :
    changes (l ++ [a]) = changes l + (l.getLast?.elim 0 fun b => if b = a then 0 else 1) := by
  induction l with
  | nil => simp [changes]
  | cons x l ih =>
    cases l with
    | nil => simp [changes]
    | cons y rest =>
      have h1 : (x :: y :: rest) ++ [a] = x :: ((y :: rest) ++ [a]) := rfl
      rw [h1]
      have h2 : (y :: rest) ++ [a] = y :: (rest ++ [a]) := rfl
      rw [h2]
      show (if x = y then 0 else 1) + changes (y :: (rest ++ [a])) = _
      rw [← h2, ih]
      simp [changes, List.getLast?_cons_cons, Nat.add_assoc]

theorem changes_reverse (l : List Bool) : changes l.reverse = changes l := by
  induction l with
  | nil => rfl
  | cons a l ih =>
    rw [List.reverse_cons, changes_append_last, ih, List.getLast?_reverse]
    cases l with
    | nil => rfl
    | cons b rest =>
      show changes (b :: rest) + _ = (if a = b then 0 else 1) + changes (b :: rest)
      simp only [List.head?_cons, Option.elim_some]
      rw [Nat.add_comm]
      congr 1
      by_cases h : a = b
      · simp [h]
      · simp [h, Ne.symm h]

/-- C7 counterexample: on the 2×1 board `cexCol` (floor cell occupied,
top cell empty) the source's feature counts 2 transitions, while the
claimed bottom-to-top scan with an implicit occupied boundary at the
bottom only counts 1. -/
theorem c7_counterexample :
    get_col_transitions (get_field_by_column cexCol) = 2 ∧
    col_transitions_claim cexCol = 1 := ⟨rfl, rfl⟩

/-- C7 (amended): for every board, the column-transitions feature equals
the count of adjacent-cell occupancy changes obtained by scanning each
column bottom-to-top with an implicit occupied boundary at the TOP only
(the bottom boundary open, the opposite of the claim), summed over all
columns: `get_field_by_column` lists each column from the top row down,
so the source's initial `prev_block = True` plays the role of a virtual
occupied cell above the board. -/
theorem c7_col_transitions (s : TState) :
    get_col_transitions (get_field_by_column s) =
      (List.range s.width).foldl
        (fun acc c =>
          acc + changes ((s.field.map fun row => decide (row.getD c 0 ≠ 0)) ++ [true])) 0 := by
  unfold get_col_transitions get_field_by_column
  rw [List.foldl_map, foldl_add_eq_sum, foldl_add_eq_sum]
  congr 1
  apply congrArg List.sum
  apply List.map_congr_left
  intro c _
  rw [transFrom_eq_changes]
  have h1 : (s.field.reverse.map fun row => row.getD c 0).map (fun v => decide (v ≠ 0)) =
      ((s.field.map fun row => decide (row.getD c 0 ≠ 0))).reverse := by
    rw [List.map_reverse, List.map_reverse, List.map_map]
    rfl
  rw [h1]
  have h2 : (true : Bool) :: ((s.field.map fun row => decide (row.getD c 0 ≠ 0))).reverse =
      (((s.field.map fun row => decide (row.getD c 0 ≠ 0))) ++ [true]).reverse := by
    rw [List.reverse_append]
    rfl
  rw [h2, changes_reverse]

/-! ## Shape lemmas for the board operations -/

theorem remove_p_shape (s : TState) (p : Piece) (i j : Int) (t : TState)
    (h : remove_p s p i j = some t) :
    ∃ F, remove_write s.field p i j = some F ∧ t = { s with field := F } := by
  unfold remove_p at h
  rw [Option.map_eq_some'] at h
  obtain ⟨F, hF, ht⟩ := h
  exact ⟨F, hF, ht.symm⟩

theorem add_p_shape (s : TState) (p : Piece) (i j : Int) (t : TState) (b : Bool)
    (h : add_p s p i j = some (t, b)) :
    (b = true ∧ add_check s.field s.width p i j = true ∧
      ∃ F, add_write s.field p i j = some F ∧
        t = { s with field := F, current_piece := (p, i, j) }) ∨
    (b = false ∧ t = s ∧ add_check s.field s.width p i j = false) := by
  unfold add_p at h
  split at h
  case isTrue hc =>
    rw [Option.map_eq_some'] at h
    obtain ⟨F, hF, hFt⟩ := h
    obtain ⟨ht, hb⟩ := Prod.mk.injEq .. ▸ hFt
    exact Or.inl ⟨hb.symm, hc, F, hF, ht.symm⟩
  case isFalse hc =>
    obtain ⟨ht, hb⟩ := Prod.mk.injEq .. ▸ (Option.some.injEq .. ▸ h)
    exact Or.inr ⟨hb.symm, ht.symm, Bool.not_eq_true _ ▸ hc⟩

/-! ## C6: the hard drop is iterated soft drops, not iterated ticks -/

theorem remove_p_bonus (s : TState) (d : Nat) (p : Piece) (i j : Int) :
    remove_p { s with drop_bonus := d } p i j =
      (remove_p s p i j).map fun u => { u with drop_bonus := d } := by
  unfold remove_p
  dsimp only
  cases remove_write s.field p i j <;> rfl

theorem add_p_bonus (s : TState) (d : Nat) (p : Piece) (i j : Int) :
    add_p { s with drop_bonus := d } p i j =
      (add_p s p i j).map fun tb => ({ tb.1 with drop_bonus := d }, tb.2) := by
  unfold add_p
  dsimp only
  by_cases hc : add_check s.field s.width p i j
  · simp only [hc, if_true]
    cases add_write s.field p i j <;> rfl
  · simp only [hc, if_false]
    rfl

theorem tick_false_bonus (s : TState) (d : Nat) :
    tick { s with drop_bonus := d } false =
      (tick s false).map fun tb => ({ tb.1 with drop_bonus := d }, tb.2) := by
  unfold tick
  dsimp only
  by_cases hi : s.current_piece.2.1 > 0
  · simp only [hi, if_true, Option.bind_eq_bind]
    rw [remove_p_bonus]
    cases hr : remove_p s s.current_piece.1 s.current_piece.2.1 s.current_piece.2.2 with
    | none => rfl
    | some s1 =>
      simp only [Option.map_some', Option.some_bind]
      rw [add_p_bonus]
      cases ha : add_p s1 s.current_piece.1 (s.current_piece.2.1 - 1) s.current_piece.2.2 with
      | none => rfl
      | some tb =>
        simp only [Option.map_some', Option.some_bind]
        by_cases hb : tb.2
        · simp only [hb, if_true]
          rfl
        · rw [Bool.not_eq_true] at hb
          simp only [hb, Bool.false_eq_true, if_false]
          rw [add_p_bonus]
          cases add_p s1 s.current_piece.1 s.current_piece.2.1 s.current_piece.2.2 <;> rfl
  · simp only [hi, if_false]
    rfl

theorem tick_false_shape (s : TState) (tb : TState × Bool)
    (h : tick s false = some tb) :
    ∃ F cur lh, tb.1 =
      { s with field := F, current_piece := cur, landing_height := lh } := by
  unfold tick at h
  dsimp only at h
  split at h
  · rw [Option.bind_eq_bind, Option.bind_eq_some] at h
    obtain ⟨s1, hr, h⟩ := h
    obtain ⟨F1, -, hs1⟩ := remove_p_shape _ _ _ _ _ hr
    subst hs1
    rw [Option.bind_eq_bind, Option.bind_eq_some] at h
    obtain ⟨tb2, ha, h⟩ := h
    rcases add_p_shape _ _ _ _ tb2.1 tb2.2 ha with ⟨hb, -, F2, -, ht⟩ | ⟨hb, ht, -⟩
    · rw [hb] at h
      simp only [if_true, Option.pure_def, Option.some.injEq] at h
      subst h
      refine ⟨F2, (s.current_piece.1, s.current_piece.2.1 - 1, s.current_piece.2.2),
        ((s.current_piece.2.1 - 1 : Int) : ℚ) + (s.current_piece.1.length : ℚ) / 2, ?_⟩
      rw [ht]
      rfl
    · rw [hb] at h
      simp only [Bool.false_eq_true, if_false, Option.bind_eq_bind,
        Option.bind_eq_some] at h
      obtain ⟨tb3, ha2, h⟩ := h
      rcases add_p_shape _ _ _ _ tb3.1 tb3.2 ha2 with ⟨-, -, F3, -, ht3⟩ | ⟨-, ht3, -⟩
      · simp only [Option.pure_def, Option.some.injEq] at h
        subst h
        refine ⟨F3, (s.current_piece.1, s.current_piece.2.1, s.current_piece.2.2),
          ((s.current_piece.2.1 : Int) : ℚ) + (s.current_piece.1.length : ℚ) / 2, ?_⟩
        rw [ht3]
        rfl
      · simp only [Option.pure_def, Option.some.injEq] at h
        subst h
        refine ⟨F1, s.current_piece,
          ((s.current_piece.2.1 : Int) : ℚ) + (s.current_piece.1.length : ℚ) / 2, ?_⟩
        rw [ht3]
        rfl
  · exact ⟨s.field, s.current_piece, s.landing_height, by
      injection h with h2
      rw [← h2]⟩

theorem hard_drop_vs_tick (fuel : Nat) :
    ∀ s t' : TState, ∀ d : Nat, tick_until_rest fuel s = some t' →
      t'.drop_bonus = s.drop_bonus ∧ t'.next_piece = s.next_piece ∧
      t'.supply_idx = s.supply_idx ∧ t'.lines = s.lines ∧ t'.level = s.level ∧
      t'.score = s.score ∧
      ∃ k, 0 < k ∧ hard_drop fuel { s with drop_bonus := d } =
        some { t' with drop_bonus := d + k } := by
  induction fuel with
  | zero => intro s t' d h; simp [tick_until_rest] at h
  | succ fuel ih =>
    intro s t' d h
    unfold tick_until_rest at h
    rw [Option.bind_eq_bind, Option.bind_eq_some] at h
    obtain ⟨tb, htick, hrest⟩ := h
    have hdown : down { s with drop_bonus := d } false =
        some ({ tb.1 with drop_bonus := d + 1 }, tb.2) := by
      unfold down
      dsimp only
      rw [tick_false_bonus, htick]
      rfl
    obtain ⟨F, cur, lh, hshape⟩ := tick_false_shape s tb htick
    by_cases hb : tb.2
    · rw [hb] at hrest
      simp only [if_true, Option.pure_def, Option.some.injEq] at hrest
      subst hrest
      refine ⟨by rw [hshape], by rw [hshape], by rw [hshape], by rw [hshape],
        by rw [hshape], by rw [hshape], 1, Nat.one_pos, ?_⟩
      unfold hard_drop
      rw [Option.bind_eq_bind, hdown, Option.some_bind, hb]
      simp only [if_true, Option.pure_def, Option.some.injEq]
    · rw [Bool.not_eq_true] at hb
      rw [hb] at hrest
      simp only [Bool.false_eq_true, if_false] at hrest
      obtain ⟨h1, h2, h3, h4, h5, h6, k, hk, hfd⟩ := ih tb.1 t' (d + 1) hrest
      refine ⟨by rw [h1, hshape], by rw [h2, hshape], by rw [h3, hshape],
        by rw [h4, hshape], by rw [h5, hshape], by rw [h6, hshape],
        k + 1, Nat.succ_pos k, ?_⟩
      unfold hard_drop
      rw [Option.bind_eq_bind, hdown, Option.some_bind, hb]
      simp only [Bool.false_eq_true, if_false]
      rw [hfd]
      have : d + 1 + k = d + (k + 1) := by omega
      rw [this]

/-- C6 counterexample: from `cexDrop` (a lone cell piece at the top of a
4×1 board) the source's hard drop — `while not self.down(False)` — adds 4
to `drop_bonus`, while iterating `tick(False)` from the same state leaves
it at 0, so the reached states differ. -/
theorem c6_counterexample :
    (hard_drop 5 cexDrop).map (fun t => t.drop_bonus) = some 4 ∧
    (tick_until_rest 5 cexDrop).map (fun t => t.drop_bonus) = some 0 := ⟨rfl, rfl⟩

/-- C6 (amended): the hard-drop loop repeatedly calls `down(False)` (the
soft drop) until rest, so it never spawns mid-loop (`next_piece`,
`supply_idx`, `lines`, `level` and `score` are those of the `tick(False)`
iteration), but each call increments `drop_bonus`: it reaches exactly the
state of iterating `tick(False)` except that `drop_bonus` has grown by
the number of `down` calls. -/
theorem c6_hard_drop (fuel : Nat) (s t' : TState)
    (h : tick_until_rest fuel s = some t') :
    t'.drop_bonus = s.drop_bonus ∧ t'.next_piece = s.next_piece ∧
    t'.supply_idx = s.supply_idx ∧ t'.lines = s.lines ∧ t'.level = s.level ∧
    t'.score = s.score ∧
    ∃ k, 0 < k ∧ hard_drop fuel s = some { t' with drop_bonus := t'.drop_bonus + k } := by
  obtain ⟨h1, h2, h3, h4, h5, h6, k, hk, hfd⟩ := hard_drop_vs_tick fuel s t' s.drop_bonus h
  refine ⟨h1, h2, h3, h4, h5, h6, k, hk, ?_⟩
  rw [h1]
  have hs : { s with drop_bonus := s.drop_bonus } = s := rfl
  rw [← hs]
  exact hfd

/-- C6 witness: the amended theorem applied to the concrete state
`cexDrop` with fuel 5 (`cexDropOut` is the tick-iteration result). -/
theorem c6_witness :
    cexDropOut.drop_bonus = cexDrop.drop_bonus ∧
    cexDropOut.next_piece = cexDrop.next_piece ∧
    cexDropOut.supply_idx = cexDrop.supply_idx ∧
    cexDropOut.lines = cexDrop.lines ∧ cexDropOut.level = cexDrop.level ∧
    cexDropOut.score = cexDrop.score ∧
    ∃ k, 0 < k ∧ hard_drop 5 cexDrop =
      some { cexDropOut with drop_bonus := cexDropOut.drop_bonus + k } :=
  c6_hard_drop 5 cexDrop cexDropOut rfl

/-! ## C8: the shuffle-bag draw stream -/

theorem map_getD_range (l : List Piece) :
    (List.range l.length).map (fun t => l.getD t []) = l := by
  apply List.ext_getElem
  · simp
  · intro n h1 h2
    simp only [List.getElem_map, List.getElem_range]
    exact List.getD_eq_getElem l [] h2

/-- C8 counterexample: `cexBags` is a stream the shuffle can produce
(every bag is a permutation of the catalog), yet the run of 7 consecutive
draws starting at index 1 straddles the first reshuffle and is not a
permutation of the 7 pieces: it sees the id-7 piece twice and the id-1
piece never. -/
theorem c8_counterexample :
    (∀ k, (cexBags k).Perm Pieces) ∧
    ¬ ((List.range 7).map fun t => bagDraws cexBags (1 + t)).Perm Pieces := by
  constructor
  · intro k
    unfold cexBags
    split
    · exact List.Perm.refl _
    · exact List.reverse_perm _
  · decide

/-- C8 (amended): for every stream of shuffle outcomes, every ALIGNED run
of 7 draws (positions 7k .. 7k+6) is exactly one bag, hence a permutation
of all 7 piece types, and every window of 14 consecutive draws contains
every piece type — so no type is absent for more than 13 consecutive
draws.  (Runs of 7 straddling a bag boundary need not be permutations.) -/
theorem c8_bag_draws (bags : Nat → List Piece) (hb : ∀ k, (bags k).Perm Pieces) :
    (∀ k, ((List.range 7).map fun t => bagDraws bags (7 * k + t)).Perm Pieces) ∧
    (∀ p ∈ Pieces, ∀ st : Nat, ∃ m, st ≤ m ∧ m < st + 14 ∧ bagDraws bags m = p) := by
  constructor
  · intro k
    have hlen : (bags k).length = 7 := (hb k).length_eq
    have h1 : ∀ t ∈ List.range 7, bagDraws bags (7 * k + t) = (bags k).getD t [] := by
      intro t ht
      rw [List.mem_range] at ht
      unfold bagDraws
      have e1 : (7 * k + t) / 7 = k := by omega
      have e2 : (7 * k + t) % 7 = t := by omega
      rw [e1, e2]
    rw [List.map_congr_left h1, ← hlen, map_getD_range]
    exact hb k
  · intro p hp st
    set k := (st + 6) / 7 with hk
    have h7k1 : st ≤ 7 * k := by omega
    have h7k2 : 7 * k ≤ st + 6 := by omega
    have hpmem : p ∈ bags k := ((hb k).mem_iff).mpr hp
    obtain ⟨⟨idx, hidx⟩, hget⟩ := List.mem_iff_get.mp hpmem
    have hlen : (bags k).length = 7 := (hb k).length_eq
    have hidx7 : idx < 7 := hlen ▸ hidx
    refine ⟨7 * k + idx, by omega, by omega, ?_⟩
    unfold bagDraws
    have e1 : (7 * k + idx) / 7 = k := by omega
    have e2 : (7 * k + idx) % 7 = idx := by omega
    rw [e1, e2, List.getD_eq_getElem (bags k) [] hidx]
    rw [← hget]
    rfl

/-- C8 witness: the amended theorem applied to the constant catalog-order
stream. -/
theorem c8_witness :
    (∀ k, ((List.range 7).map fun t =>
      bagDraws (fun _ => Pieces) (7 * k + t)).Perm Pieces) ∧
    (∀ p ∈ Pieces, ∀ st : Nat, ∃ m, st ≤ m ∧ m < st + 14 ∧
      bagDraws (fun _ => Pieces) m = p) :=
  c8_bag_draws (fun _ => Pieces) (fun _ => List.Perm.refl _)

/-! ## C3: what a successful move/rotate validated -/

theorem mem_productList (ph pw a b : Nat) (ha : a < ph) (hb : b < pw) :
    (a, b) ∈ productList ph pw := by
  unfold productList
  rw [List.mem_flatMap]
  exact ⟨a, List.mem_range.mpr ha, List.mem_map.mpr ⟨b, List.mem_range.mpr hb, rfl⟩⟩

theorem add_check_spec (F : Field) (w : Nat) (p : Piece) (i j : Int)
    (h : add_check F w p i j = true) : placement_ok F w p i j := by
  unfold add_check at h
  dsimp only at h
  split at h
  · exact absurd h (by simp)
  case isFalse hc =>
    push_neg at hc
    refine ⟨hc.1, hc.2, ?_⟩
    intro a b ha hb v hv hv0
    rw [List.all_eq_true] at h
    have hf := h (a, b) (mem_productList _ _ _ _ ha hb)
    rw [hv] at hf
    cases v with
    | zero => exact absurd rfl hv0
    | succ n =>
      cases hcell : getCell F (i + a) (j + b) with
      | none => rw [hcell] at hf; exact absurd hf (by simp)
      | some c =>
        rw [hcell] at hf
        simp only [decide_eq_true_eq] at hf
        rw [hf]

/-- C3 counterexample: on `cexRotate` — the horizontal I piece lying on
the floor row of an otherwise empty 6×4 board — `rotate()` returns
`True`, yet the adopted placement has row offset −2, and two of the
vertical bar's cells were written to the top rows (4 and 5) of the
board: the piece does not lie within the board as the claim requires. -/
theorem c3_counterexample :
    rotate cexRotate = some (cexRotateOut, true) ∧
    cexRotateOut.current_piece.2.1 = -2 ∧
    cexRotateOut.field.getD 4 [] = [0, 1, 0, 0] ∧
    cexRotateOut.field.getD 5 [] = [0, 1, 0, 0] :=
  ⟨rfl, rfl, rfl, rfl⟩

/-- C3 (amended): whenever `left`, `right` or `rotate` returns `True`,
the adopted candidate placement (the new `current_piece`) passed
`add_p`'s validation against the board with the prior piece's cells
removed: its column offset is at least 0, column offset plus piece width
is at most the board width, and every nonzero piece cell lands on an
existing empty cell; but the row offset is NOT checked to be
nonnegative — Python's negative-index wrapping lets `rotate` adopt a
placement with a negative row offset whose cells sit at the top of the
board (`c3_counterexample`) — and row overflow is only rejected through
the `IndexError` raised at the piece's nonzero cells. -/
theorem c3_move_validation (s t : TState) :
    (left s = some (t, true) →
      ∃ s1, remove_p s s.current_piece.1 s.current_piece.2.1 s.current_piece.2.2 = some s1 ∧
        placement_ok s1.field s.width t.current_piece.1 t.current_piece.2.1
          t.current_piece.2.2) ∧
    (right s = some (t, true) →
      ∃ s1, remove_p s s.current_piece.1 s.current_piece.2.1 s.current_piece.2.2 = some s1 ∧
        placement_ok s1.field s.width t.current_piece.1 t.current_piece.2.1
          t.current_piece.2.2) ∧
    (rotate s = some (t, true) →
      ∃ s1, remove_p s s.current_piece.1 s.current_piece.2.1 s.current_piece.2.2 = some s1 ∧
        placement_ok s1.field s.width t.current_piece.1 t.current_piece.2.1
          t.current_piece.2.2) := by
  refine ⟨?_, ?_, ?_⟩
  · intro h
    unfold left at h
    rw [Option.bind_eq_bind, Option.bind_eq_some] at h
    obtain ⟨s1, hr, h⟩ := h
    rw [Option.bind_eq_bind, Option.bind_eq_some] at h
    obtain ⟨tb, ha, h⟩ := h
    refine ⟨s1, hr, ?_⟩
    obtain ⟨F1, -, hs1⟩ := remove_p_shape _ _ _ _ _ hr
    split at h
    case isTrue hb =>
      simp only [Option.pure_def, Option.some.injEq, Prod.mk.injEq] at h
      rcases add_p_shape _ _ _ _ tb.1 tb.2 ha with ⟨-, hchk, F, -, ht⟩ | ⟨hb2, -, -⟩
      · have := add_check_spec _ _ _ _ _ hchk
        rw [← h.1, ht]
        subst hs1
        exact this
      · rw [hb2] at hb; exact absurd hb (by simp)
    case isFalse hb =>
      rw [Option.map_eq_some'] at h
      obtain ⟨tb2, -, h2⟩ := h
      obtain ⟨-, hfalse⟩ := Prod.mk.injEq .. ▸ h2
      exact absurd hfalse.symm (by simp)
  · intro h
    unfold right at h
    rw [Option.bind_eq_bind, Option.bind_eq_some] at h
    obtain ⟨s1, hr, h⟩ := h
    rw [Option.bind_eq_bind, Option.bind_eq_some] at h
    obtain ⟨tb, ha, h⟩ := h
    refine ⟨s1, hr, ?_⟩
    obtain ⟨F1, -, hs1⟩ := remove_p_shape _ _ _ _ _ hr
    split at h
    case isTrue hb =>
      simp only [Option.pure_def, Option.some.injEq, Prod.mk.injEq] at h
      rcases add_p_shape _ _ _ _ tb.1 tb.2 ha with ⟨-, hchk, F, -, ht⟩ | ⟨hb2, -, -⟩
      · have := add_check_spec _ _ _ _ _ hchk
        rw [← h.1, ht]
        subst hs1
        exact this
      · rw [hb2] at hb; exact absurd hb (by simp)
    case isFalse hb =>
      rw [Option.map_eq_some'] at h
      obtain ⟨tb2, -, h2⟩ := h
      obtain ⟨-, hfalse⟩ := Prod.mk.injEq .. ▸ h2
      exact absurd hfalse.symm (by simp)
  · intro h
    unfold rotate at h
    rw [Option.bind_eq_bind, Option.bind_eq_some] at h
    obtain ⟨s1, hr, h⟩ := h
    rw [Option.bind_eq_bind, Option.bind_eq_some] at h
    obtain ⟨tb, ha, h⟩ := h
    refine ⟨s1, hr, ?_⟩
    obtain ⟨F1, -, hs1⟩ := remove_p_shape _ _ _ _ _ hr
    split at h
    case isTrue hb =>
      simp only [Option.pure_def, Option.some.injEq, Prod.mk.injEq] at h
      rcases add_p_shape _ _ _ _ tb.1 tb.2 ha with ⟨-, hchk, F, -, ht⟩ | ⟨hb2, -, -⟩
      · have := add_check_spec _ _ _ _ _ hchk
        have hcur : t.current_piece = tb.1.current_piece := by rw [← h.1]
        rw [hcur, ht]
        subst hs1
        exact this
      · rw [hb2] at hb; exact absurd hb (by simp)
    case isFalse hb =>
      rw [Option.map_eq_some'] at h
      obtain ⟨tb2, -, h2⟩ := h
      obtain ⟨-, hfalse⟩ := Prod.mk.injEq .. ▸ h2
      exact absurd hfalse.symm (by simp)

/-- C3 witness: the amended theorem applied to the concrete successful
rotation of `c3_counterexample`. -/
theorem c3_witness :
    ∃ s1, remove_p cexRotate cexRotate.current_piece.1 cexRotate.current_piece.2.1
        cexRotate.current_piece.2.2 = some s1 ∧
      placement_ok s1.field cexRotate.width cexRotateOut.current_piece.1
        cexRotateOut.current_piece.2.1 cexRotateOut.current_piece.2.2 :=
  (c3_move_validation cexRotate cexRotateOut).2.2 rfl

/-! ## C1: the line-clear-and-score pass of new_p -/

theorem rowFull_replicate (w : Nat) (hw : 0 < w) :
    rowFull (List.replicate w 0) = false := by
  cases w with
  | zero => exact absurd hw (by simp)
  | succ n => simp [rowFull, List.replicate_succ]

theorem removeRowAt_length (F : Field) (i w : Nat) (hi : i < F.length) :
    (removeRowAt F i w).length = F.length := by
  unfold removeRowAt
  simp only [List.length_append, List.length_take, List.length_drop,
    List.length_replicate, List.length_cons, List.length_nil]
  omega

theorem removeRowAt_rows (F : Field) (i w : Nat)
    (hrows : ∀ r ∈ F, r.length = w) :
    ∀ r ∈ removeRowAt F i w, r.length = w := by
  intro r hr
  unfold removeRowAt at hr
  rw [List.append_assoc, List.mem_append] at hr
  rcases hr with hr | hr
  · exact hrows r (List.take_subset i F hr)
  · rw [List.mem_append] at hr
    rcases hr with hr | hr
    · exact hrows r (List.drop_subset (i + 1) F hr)
    · rw [List.mem_singleton] at hr
      rw [hr, List.length_replicate]

theorem countP_removeRowAt (F : Field) (i w : Nat) (hi : i < F.length)
    (hfull : rowFull (F.getD i []) = true) (hw : 0 < w) :
    (removeRowAt F i w).countP rowFull + 1 = F.countP rowFull := by
  have hdrop : F.drop i = F.getD i [] :: F.drop (i + 1) := by
    rw [List.getD_eq_getElem F [] hi]
    exact List.drop_eq_getElem_cons hi
  have e1 : (removeRowAt F i w).countP rowFull =
      (F.take i).countP rowFull + (F.drop (i + 1)).countP rowFull := by
    unfold removeRowAt
    rw [List.countP_append, List.countP_append]
    have e0 : ([List.replicate w 0] : Field).countP rowFull = 0 := by
      simp [List.countP_cons, List.countP_nil, rowFull_replicate w hw]
    rw [e0, Nat.add_zero]
  have e2 : F.countP rowFull =
      (F.take i).countP rowFull + ((F.drop (i + 1)).countP rowFull + 1) := by
    conv_lhs => rw [← List.take_append_drop i F]
    rw [List.countP_append, hdrop, List.countP_cons, hfull]
    simp
  omega

theorem clearScan_spec (height width : Nat) (hw : 0 < width) :
    ∀ n i F c, height ≤ i + n → F.length = height →
      (∀ r ∈ F, r.length = width) →
      (clearScan height width i F c).1.length = height ∧
      (∀ r ∈ (clearScan height width i F c).1, r.length = width) ∧
      (clearScan height width i F c).1.countP rowFull +
        (clearScan height width i F c).2 = F.countP rowFull + c ∧
      c ≤ (clearScan height width i F c).2 ∧
      ((clearScan height width i F c).2 = c →
        (clearScan height width i F c).1 = F ∧
        ∀ idx, i ≤ idx → idx < height → rowFull (F.getD idx []) = false) := by
  intro n
  induction n with
  | zero =>
    intro i F c hn hlen hrows
    have hi : ¬ i < height := by omega
    rw [clearScan, dif_neg hi]
    exact ⟨hlen, hrows, rfl, Nat.le_refl c,
      fun _ => ⟨rfl, fun idx h1 h2 => absurd (Nat.lt_of_le_of_lt h1 h2) hi⟩⟩
  | succ n ih =>
    intro i F c hn hlen hrows
    by_cases hi : i < height
    · rw [clearScan, dif_pos hi]
      by_cases hfull : rowFull (F.getD i []) = true
      · rw [if_pos hfull]
        have hiF : i < F.length := by omega
        have h1 := removeRowAt_length F i width hiF
        have h2 := removeRowAt_rows F i width hrows
        have h3 := countP_removeRowAt F i width hiF hfull hw
        obtain ⟨l1, l2, l3, l4, l5⟩ := ih (i + 1) (removeRowAt F i width) (c + 1)
          (by omega) (by omega) h2
        refine ⟨l1, l2, by omega, by omega, fun hc => absurd hc (by omega)⟩
      · rw [if_neg hfull]
        obtain ⟨l1, l2, l3, l4, l5⟩ := ih (i + 1) F c (by omega) hlen hrows
        refine ⟨l1, l2, l3, l4, fun hc => ?_⟩
        obtain ⟨e1, e2⟩ := l5 hc
        refine ⟨e1, fun idx hidx1 hidx2 => ?_⟩
        rcases Nat.eq_or_lt_of_le hidx1 with heq | hlt
        · rw [← heq]
          exact Bool.not_eq_true _ ▸ hfull
        · exact e2 idx hlt hidx2
    · rw [clearScan, dif_neg hi]
      exact ⟨hlen, hrows, rfl, Nat.le_refl c,
        fun _ => ⟨rfl, fun idx h1 h2 => absurd (Nat.lt_of_le_of_lt h1 h2) hi⟩⟩

theorem clearLoop_spec (height width : Nat) (hw : 0 < width) :
    ∀ fuel F c, F.countP rowFull < fuel → F.length = height →
      (∀ r ∈ F, r.length = width) →
      ∃ F' c', clearLoop height width fuel F c = some (F', c') ∧
        F'.length = height ∧ (∀ r ∈ F', r.length = width) ∧
        c' = c + F.countP rowFull ∧
        ∀ r ∈ F', rowFull r = false := by
  intro fuel
  induction fuel with
  | zero => intro F c hcount _ _; exact absurd hcount (by omega)
  | succ fuel ih =>
    intro F c hcount hlen hrows
    obtain ⟨l1, l2, l3, l4, l5⟩ :=
      clearScan_spec height width hw height 0 F 0 (by omega) hlen hrows
    unfold clearLoop
    by_cases h0 : (clearScan height width 0 F 0).2 = 0
    · obtain ⟨e1, e2⟩ := l5 h0
      have hnone : ∀ r ∈ F, rowFull r = false := by
        intro r hr
        obtain ⟨idx, hidx, hget⟩ := List.mem_iff_getElem.mp hr
        have := e2 idx (Nat.zero_le idx) (by omega)
        rw [List.getD_eq_getElem F [] hidx, hget] at this
        exact this
      have hcz : F.countP rowFull = 0 :=
        List.countP_eq_zero.mpr fun r hr => by rw [hnone r hr]; exact Bool.false_ne_true
      rw [if_pos h0]
      exact ⟨F, c, rfl, hlen, hrows, by omega, hnone⟩
    · rw [if_neg h0]
      have hlt : (clearScan height width 0 F 0).1.countP rowFull < fuel := by omega
      obtain ⟨F', c', e1, e2, e3, e4, e5⟩ :=
        ih (clearScan height width 0 F 0).1 (c + (clearScan height width 0 F 0).2)
          hlt l1 l2
      exact ⟨F', c', e1, e2, e3, by omega, e5⟩

theorem table_get (k : Nat) (hk : k ≤ 4) :
    [0, 40, 100, 300, 1200].get? k = some ([0, 40, 100, 300, 1200].getD k 0) := by
  interval_cases k <;> rfl

/-- Everything the clear-and-score pass does, for a well-formed board with
at most 4 full rows: the board keeps its dimensions and ends with no fully
occupied row, `cleared` is the number of full rows of the input board,
`lines`/`level`/`score` are updated by the source's formulas, the drop
bonus and parity counters reset, and every other engine field is
untouched. -/
theorem clear_and_score_spec (s : TState)
    (hlen : s.field.length = s.height)
    (hrows : ∀ r ∈ s.field, r.length = s.width) (hw : 0 < s.width)
    (hfull : s.field.countP rowFull ≤ 4) :
    ∃ t, clear_and_score s = some t ∧
      t.cleared = s.field.countP rowFull ∧
      t.field.length = s.height ∧ (∀ r ∈ t.field, r.length = s.width) ∧
      (∀ r ∈ t.field, rowFull r = false) ∧
      t.lines = s.lines + t.cleared ∧
      t.level = (if (s.lines + t.cleared) / 10 > s.lines / 10
        then min (s.level + 1) (Speeds.length - 1) else s.level) ∧
      t.score = s.score +
        [0, 40, 100, 300, 1200].getD t.cleared 0 * (t.level + 1) + s.drop_bonus ∧
      t.drop_bonus = 0 ∧ t.hoff = 0 ∧ t.woff = 0 ∧
      t.height = s.height ∧ t.width = s.width ∧
      t.current_piece = s.current_piece ∧ t.next_piece = s.next_piece ∧
      t.supply = s.supply ∧ t.supply_idx = s.supply_idx ∧
      t.continues = s.continues ∧ t.landing_height = s.landing_height ∧
      t.saved = s.saved ∧ t.pieces_placed = s.pieces_placed := by
  obtain ⟨F', c', e1, e2, e3, e4, e5⟩ :=
    clearLoop_spec s.height s.width hw (s.height + 1) s.field 0
      (by
        have h5 : s.field.countP rowFull ≤ s.field.length :=
          List.countP_le_length rowFull
        omega) hlen hrows
  have hc' : c' = s.field.countP rowFull := by omega
  unfold clear_and_score
  rw [Option.bind_eq_bind, e1, Option.some_bind, Option.bind_eq_bind,
    table_get c' (by omega), Option.some_bind]
  exact ⟨_, rfl, hc', e2, e3, e5, by rw [hc'], by rw [hc'], by rw [hc'], rfl, rfl,
    rfl, rfl, rfl, rfl, rfl, rfl, rfl, rfl, rfl, rfl, rfl⟩

/-- C1: when `spawn()` runs its line-clear-and-score pass on a well-formed
board (at most 4 fully occupied rows, as at any real spawn, where only the
just-landed piece's rows can be full), every fully occupied row is removed
— the scan-and-shift repeats until no row is fully occupied — `lines`
grows by the number of rows removed, `score` grows by the table entry
`[0,40,100,300,1200]` for that count multiplied by `(level + 1)` (the
level after its own update, which the source applies first) plus the
accumulated drop bonus, and the drop bonus resets to 0; in particular one
cleared row adds exactly `40 * (level + 1)` plus the pending bonus. -/
theorem c1_line_clear_scoring (s : TState)
    (hlen : s.field.length = s.height)
    (hrows : ∀ r ∈ s.field, r.length = s.width) (hw : 0 < s.width)
    (hfull : s.field.countP rowFull ≤ 4) :
    ∃ t, clear_and_score s = some t ∧
      t.cleared = s.field.countP rowFull ∧
      (∀ r ∈ t.field, rowFull r = false) ∧
      t.lines = s.lines + s.field.countP rowFull ∧
      t.score = s.score +
        [0, 40, 100, 300, 1200].getD (s.field.countP rowFull) 0 * (t.level + 1) +
        s.drop_bonus ∧
      t.drop_bonus = 0 ∧
      (s.field.countP rowFull = 1 →
        t.score = s.score + 40 * (t.level + 1) + s.drop_bonus) := by
  obtain ⟨t, e1, e2, -, -, e5, e6, -, e8, e9, -⟩ :=
    clear_and_score_spec s hlen hrows hw hfull
  refine ⟨t, e1, e2, e5, by rw [e6, e2], by rw [e8, e2], e9, fun h1 => ?_⟩
  rw [e8, e2, h1]
  rfl

/-- C1 witness: the theorem applied to `cexClear` (3×2 board, full floor
row, 9 lines already cleared, 5 pending drop-bonus points): the single
clear lifts `lines` to 10, `level` to 1, and adds `40 * 2 + 5` to the
score. -/
theorem c1_witness :
    ∃ t, clear_and_score cexClear = some t ∧
      t.cleared = cexClear.field.countP rowFull ∧
      (∀ r ∈ t.field, rowFull r = false) ∧
      t.lines = cexClear.lines + cexClear.field.countP rowFull ∧
      t.score = cexClear.score +
        [0, 40, 100, 300, 1200].getD (cexClear.field.countP rowFull) 0 * (t.level + 1) +
        cexClear.drop_bonus ∧
      t.drop_bonus = 0 ∧
      (cexClear.field.countP rowFull = 1 →
        t.score = cexClear.score + 40 * (t.level + 1) + cexClear.drop_bonus) :=
  c1_line_clear_scoring cexClear rfl (by decide) (by decide) (by decide)

/-! ## C9: the level/lines invariant along engine operations -/

theorem clear_and_score_level (s t : TState) (h : clear_and_score s = some t) :
    ∃ c, c ≤ 4 ∧ t.lines = s.lines + c ∧
      t.level = if s.lines / 10 < (s.lines + c) / 10
        then min (s.level + 1) (Speeds.length - 1) else s.level := by
  unfold clear_and_score at h
  rw [Option.bind_eq_bind, Option.bind_eq_some] at h
  obtain ⟨fc, -, h⟩ := h
  rw [Option.bind_eq_bind, Option.bind_eq_some] at h
  obtain ⟨base, hbase, h⟩ := h
  have hc4 : fc.2 ≤ 4 := by
    by_contra hge
    push_neg at hge
    rw [List.get?_eq_none.mpr (by simpa using hge)] at hbase
    exact Option.noConfusion hbase
  obtain ht := Option.some.injEq .. ▸ h
  subst ht
  exact ⟨fc.2, hc4, rfl, rfl⟩

theorem spawn_step_level (s t : TState) (h : spawn_step s = some t) :
    t.lines = s.lines ∧ t.level = s.level ∧ t.cleared = s.cleared ∧
    t.score = s.score ∧ t.drop_bonus = s.drop_bonus := by
  unfold spawn_step at h
  rw [Option.map_eq_some'] at h
  obtain ⟨tb, ha, ht⟩ := h
  rcases add_p_shape _ _ _ _ tb.1 tb.2 ha with ⟨hb, -, F, -, hsh⟩ | ⟨hb, hsh, -⟩ <;>
    subst ht <;> rw [hb] <;> simp only [if_true, Bool.false_eq_true, if_false] <;>
    rw [hsh] <;> exact ⟨rfl, rfl, rfl, rfl, rfl⟩

theorem new_p_level (s t : TState) (h : new_p s = some t) :
    ∃ c, c ≤ 4 ∧ t.lines = s.lines + c ∧
      t.level = if s.lines / 10 < (s.lines + c) / 10
        then min (s.level + 1) (Speeds.length - 1) else s.level := by
  unfold new_p at h
  rw [Option.bind_eq_some] at h
  obtain ⟨m, hc, hsp⟩ := h
  obtain ⟨c, hc4, hl, hv⟩ := clear_and_score_level s m hc
  obtain ⟨e1, e2, -, -, -⟩ := spawn_step_level m t hsp
  exact ⟨c, hc4, by rw [e1, hl], by rw [e2, hv]⟩

theorem tick_level (s : TState) (adv : Bool) (tb : TState × Bool)
    (h : tick s adv = some tb) :
    (tb.1.lines = s.lines ∧ tb.1.level = s.level) ∨
    (∃ s2, s2.lines = s.lines ∧ s2.level = s.level ∧ new_p s2 = some tb.1) := by
  unfold tick at h
  dsimp only at h
  split at h
  · rw [Option.bind_eq_bind, Option.bind_eq_some] at h
    obtain ⟨s1, hr, h⟩ := h
    obtain ⟨F1, -, hs1⟩ := remove_p_shape _ _ _ _ _ hr
    rw [Option.bind_eq_bind, Option.bind_eq_some] at h
    obtain ⟨tb2, ha, h⟩ := h
    split at h
    · obtain ht := Option.some.injEq .. ▸ h
      rcases add_p_shape _ _ _ _ tb2.1 tb2.2 ha with ⟨-, -, F2, -, hsh⟩ | ⟨-, hsh, -⟩ <;>
      · rw [← ht]
        left
        rw [hsh, hs1]
        exact ⟨rfl, rfl⟩
    · rw [Option.bind_eq_some] at h
      obtain ⟨tb3, ha2, h⟩ := h
      have hll : tb3.1.lines = s.lines ∧ tb3.1.level = s.level := by
        rcases add_p_shape _ _ _ _ tb3.1 tb3.2 ha2 with ⟨-, -, F3, -, hsh⟩ | ⟨-, hsh, -⟩ <;>
          rw [hsh, hs1] <;> exact ⟨rfl, rfl⟩
      split at h
      · rw [Option.map_eq_some'] at h
        obtain ⟨u, hu, htu⟩ := h
        right
        refine ⟨record_landing_height tb3.1, hll.1, hll.2, ?_⟩
        rw [hu, ← htu]
      · obtain ht := Option.some.injEq .. ▸ h
        rw [← ht]
        left
        exact hll
  · split at h
    · rw [Option.map_eq_some'] at h
      obtain ⟨u, hu, htu⟩ := h
      right
      exact ⟨s, rfl, rfl, by rw [hu, ← htu]⟩
    · obtain ht := Option.some.injEq .. ▸ h
      rw [← ht]
      left
      exact ⟨rfl, rfl⟩

theorem step_level (s t : TState) (h : Step s t) :
    (t.lines = s.lines ∧ t.level = s.level) ∨
    (∃ c, c ≤ 4 ∧ t.lines = s.lines + c ∧
      t.level = if s.lines / 10 < (s.lines + c) / 10
        then min (s.level + 1) (Speeds.length - 1) else s.level) := by
  obtain ⟨-, op, hop⟩ := h
  have hmove : ∀ u : TState, (∃ F cur, u = { s with field := F, current_piece := cur }) →
      u.lines = s.lines ∧ u.level = s.level := by
    rintro u ⟨F, cur, rfl⟩
    exact ⟨rfl, rfl⟩
  have htickcase : ∀ s' : TState, s'.lines = s.lines → s'.level = s.level →
      ∀ adv (tb : TState × Bool), tick s' adv = some tb → t = tb.1 →
      (t.lines = s.lines ∧ t.level = s.level) ∨
      (∃ c, c ≤ 4 ∧ t.lines = s.lines + c ∧
        t.level = if s.lines / 10 < (s.lines + c) / 10
          then min (s.level + 1) (Speeds.length - 1) else s.level) := by
    intro s' h1 h2 adv tb htk ht
    rcases tick_level s' adv tb htk with ⟨e1, e2⟩ | ⟨s2, e1, e2, hnp⟩
    · left
      rw [ht, e1, e2, h1, h2]
      exact ⟨rfl, rfl⟩
    · obtain ⟨c, hc4, f1, f2⟩ := new_p_level s2 tb.1 hnp
      right
      refine ⟨c, hc4, ?_, ?_⟩
      · rw [ht, f1, e1, h1]
      · rw [ht, f2, e1, e2, h1, h2]
  cases op with
  | mvLeft =>
    unfold stepResult at hop
    rw [Option.map_eq_some'] at hop
    obtain ⟨tb, hl, ht⟩ := hop
    unfold left at hl
    rw [Option.bind_eq_bind, Option.bind_eq_some] at hl
    obtain ⟨s1, hr, hl⟩ := hl
    obtain ⟨F1, -, hs1⟩ := remove_p_shape _ _ _ _ _ hr
    rw [Option.bind_eq_bind, Option.bind_eq_some] at hl
    obtain ⟨tb2, ha, hl⟩ := hl
    left
    split at hl
    · obtain he := Option.some.injEq .. ▸ hl
      rcases add_p_shape _ _ _ _ tb2.1 tb2.2 ha with ⟨-, -, F2, -, hsh⟩ | ⟨-, hsh, -⟩ <;>
      · rw [← ht, ← he]
        dsimp only
        rw [hsh, hs1]
        exact ⟨rfl, rfl⟩
    · rw [Option.map_eq_some'] at hl
      obtain ⟨tb3, ha2, he⟩ := hl
      rcases add_p_shape _ _ _ _ tb3.1 tb3.2 ha2 with ⟨-, -, F3, -, hsh⟩ | ⟨-, hsh, -⟩ <;>
      · rw [← ht, ← he]
        dsimp only
        rw [hsh, hs1]
        exact ⟨rfl, rfl⟩
  | mvRight =>
    unfold stepResult at hop
    rw [Option.map_eq_some'] at hop
    obtain ⟨tb, hl, ht⟩ := hop
    unfold right at hl
    rw [Option.bind_eq_bind, Option.bind_eq_some] at hl
    obtain ⟨s1, hr, hl⟩ := hl
    obtain ⟨F1, -, hs1⟩ := remove_p_shape _ _ _ _ _ hr
    rw [Option.bind_eq_bind, Option.bind_eq_some] at hl
    obtain ⟨tb2, ha, hl⟩ := hl
    left
    split at hl
    · obtain he := Option.some.injEq .. ▸ hl
      rcases add_p_shape _ _ _ _ tb2.1 tb2.2 ha with ⟨-, -, F2, -, hsh⟩ | ⟨-, hsh, -⟩ <;>
      · rw [← ht, ← he]
        dsimp only
        rw [hsh, hs1]
        exact ⟨rfl, rfl⟩
    · rw [Option.map_eq_some'] at hl
      obtain ⟨tb3, ha2, he⟩ := hl
      rcases add_p_shape _ _ _ _ tb3.1 tb3.2 ha2 with ⟨-, -, F3, -, hsh⟩ | ⟨-, hsh, -⟩ <;>
      · rw [← ht, ← he]
        dsimp only
        rw [hsh, hs1]
        exact ⟨rfl, rfl⟩
  | mvRotate =>
    unfold stepResult at hop
    rw [Option.map_eq_some'] at hop
    obtain ⟨tb, hl, ht⟩ := hop
    unfold rotate at hl
    rw [Option.bind_eq_bind, Option.bind_eq_some] at hl
    obtain ⟨s1, hr, hl⟩ := hl
    obtain ⟨F1, -, hs1⟩ := remove_p_shape _ _ _ _ _ hr
    rw [Option.bind_eq_bind, Option.bind_eq_some] at hl
    obtain ⟨tb2, ha, hl⟩ := hl
    left
    split at hl
    · obtain he := Option.some.injEq .. ▸ hl
      rcases add_p_shape _ _ _ _ tb2.1 tb2.2 ha with ⟨-, -, F2, -, hsh⟩ | ⟨-, hsh, -⟩ <;>
      · rw [← ht, ← he]
        dsimp only
        rw [hsh, hs1]
        exact ⟨rfl, rfl⟩
    · rw [Option.map_eq_some'] at hl
      obtain ⟨tb3, ha2, he⟩ := hl
      rcases add_p_shape _ _ _ _ tb3.1 tb3.2 ha2 with ⟨-, -, F3, -, hsh⟩ | ⟨-, hsh, -⟩ <;>
      · rw [← ht, ← he]
        dsimp only
        rw [hsh, hs1]
        exact ⟨rfl, rfl⟩
  | opTick adv =>
    unfold stepResult at hop
    rw [Option.map_eq_some'] at hop
    obtain ⟨tb, htk, ht⟩ := hop
    exact htickcase s rfl rfl adv tb htk ht.symm
  | opDown adv =>
    unfold stepResult at hop
    rw [Option.map_eq_some'] at hop
    obtain ⟨tb, htk, ht⟩ := hop
    unfold down at htk
    exact htickcase { s with drop_bonus := s.drop_bonus + 1 } rfl rfl adv tb htk ht.symm
  | opSpawn =>
    unfold stepResult at hop
    obtain ⟨c, hc4, f1, f2⟩ := new_p_level s t hop
    exact Or.inr ⟨c, hc4, f1, f2⟩

theorem step_preserves_inv (s t : TState) (h : Step s t)
    (hs : s.level = min (s.lines / 10) (Speeds.length - 1)) :
    t.level = min (t.lines / 10) (Speeds.length - 1) := by
  have h19 : Speeds.length - 1 = 19 := rfl
  rcases step_level s t h with ⟨h1, h2⟩ | ⟨c, hc4, h1, h2⟩
  · rw [h1, h2]
    exact hs
  · rw [h19] at hs ⊢
    rw [h1, h2, h19]
    by_cases hcross : s.lines / 10 < (s.lines + c) / 10
    · rw [if_pos hcross]
      omega
    · rw [if_neg hcross]
      omega

theorem step_level_mono (s t : TState) (h : Step s t)
    (hs : s.level = min (s.lines / 10) (Speeds.length - 1)) :
    s.level ≤ t.level := by
  have h19 : Speeds.length - 1 = 19 := rfl
  rcases step_level s t h with ⟨-, h2⟩ | ⟨c, -, -, h2⟩
  · omega
  · rw [h19] at hs
    rw [h2, h19]
    by_cases hcross : s.lines / 10 < (s.lines + c) / 10
    · rw [if_pos hcross]
      omega
    · rw [if_neg hcross]

/-- C9: across every sequence of Board Engine operations (move, rotate,
tick, soft drop, spawn — spec §4.2; the Snapshot Manager of §4.3 is a
separate component that rolls the whole progress state back together),
starting from a freshly constructed engine, `level` equals
`⌊lines / 10⌋` capped at the speed table's last index, never exceeds 19,
and is monotonically nondecreasing along every further step. -/
theorem c9_level_invariant (height width : Nat) (supply : Nat → Piece)
    (s : TState) (hR : Reach (init_state height width supply) s) :
    s.level = min (s.lines / 10) (Speeds.length - 1) ∧ s.level ≤ 19 ∧
    ∀ t, Step s t → s.level ≤ t.level := by
  have hinv : s.level = min (s.lines / 10) (Speeds.length - 1) := by
    unfold Reach at hR
    induction hR with
    | refl =>
      show (0 : Nat) = min (0 / 10) (Speeds.length - 1)
      decide
    | tail h1 h2 ih => exact step_preserves_inv _ _ h2 ih
  have h19 : Speeds.length - 1 = 19 := rfl
  refine ⟨hinv, by rw [hinv, h19]; omega, fun t ht => step_level_mono s t ht hinv⟩

/-! ## C10: totality of the board operations on placed states -/

theorem pyIdx_lt (n : Nat) (x : Int) (k : Nat) (h : pyIdx n x = some k) : k < n := by
  unfold pyIdx at h
  split at h
  case isTrue hc =>
    obtain hk := Option.some.injEq .. ▸ h
    omega
  case isFalse =>
    split at h
    case isTrue hc =>
      obtain hk := Option.some.injEq .. ▸ h
      omega
    case isFalse => exact Option.noConfusion h

theorem pyIdx_pos (n : Nat) (x : Int) (h0 : 0 ≤ x) (hn : x < (n : Int)) :
    pyIdx n x = some x.toNat := by
  unfold pyIdx
  rw [if_pos ⟨h0, hn⟩]

theorem rowlen_of_wf (F : Field) (w : Nat) (hrows : ∀ r ∈ F, r.length = w)
    (k : Nat) (hk : k < F.length) : (F.getD k []).length = w := by
  rw [List.getD_eq_getElem F [] hk]
  exact hrows _ (List.getElem_mem hk)

theorem pGet_total (p : Piece) (pw : Nat)
    (hrect : ∀ r ∈ p, r.length = pw) (a b : Nat) (ha : a < p.length) (hb : b < pw) :
    ∃ v, pGet p a b = some v := by
  unfold pGet
  rw [List.get?_eq_getElem?, List.getElem?_eq_getElem ha, Option.some_bind]
  have hl : p[a].length = pw := hrect _ (List.getElem_mem ha)
  rw [List.get?_eq_getElem?, List.getElem?_eq_getElem (by omega)]
  exact ⟨_, rfl⟩

theorem getCell_total (F : Field) (hgt wdt : Nat) (hlen : F.length = hgt)
    (hrows : ∀ r ∈ F, r.length = wdt) (i j : Int)
    (hra : (pyIdx hgt i).isSome = true) (hj0 : 0 ≤ j) (hjw : j < (wdt : Int)) :
    ∃ c, getCell F i j = some c := by
  obtain ⟨ra, hra⟩ := Option.isSome_iff_exists.mp hra
  unfold getCell
  rw [hlen, hra]
  simp only [Option.bind_eq_bind, Option.some_bind]
  rw [rowlen_of_wf F wdt hrows ra (by rw [hlen]; exact pyIdx_lt hgt i ra hra),
    pyIdx_pos wdt j hj0 hjw]
  exact ⟨_, rfl⟩

theorem setCell_total (F : Field) (hgt wdt : Nat) (hlen : F.length = hgt)
    (hrows : ∀ r ∈ F, r.length = wdt) (i j : Int) (v : Nat)
    (hra : (pyIdx hgt i).isSome = true) (hj0 : 0 ≤ j) (hjw : j < (wdt : Int)) :
    ∃ F', setCell F i j v = some F' ∧ F'.length = hgt ∧
      ∀ r ∈ F', r.length = wdt := by
  obtain ⟨ra, hra⟩ := Option.isSome_iff_exists.mp hra
  have hltr : ra < F.length := by rw [hlen]; exact pyIdx_lt hgt i ra hra
  unfold setCell
  rw [hlen, hra]
  simp only [Option.bind_eq_bind, Option.some_bind]
  rw [rowlen_of_wf F wdt hrows ra hltr, pyIdx_pos wdt j hj0 hjw]
  refine ⟨_, rfl, by rw [List.length_set]; exact hlen, ?_⟩
  intro r hr
  rcases List.mem_or_eq_of_mem_set hr with hr | hr
  · exact hrows r hr
  · rw [hr, List.length_set]
    exact rowlen_of_wf F wdt hrows ra hltr

theorem productList_mem (ph pw : Nat) :
    ∀ ab ∈ productList ph pw, ab.1 < ph ∧ ab.2 < pw := by
  intro ab hab
  unfold productList at hab
  rw [List.mem_flatMap] at hab
  obtain ⟨a, ha, hab⟩ := hab
  rw [List.mem_map] at hab
  obtain ⟨b, hb, he⟩ := hab
  rw [← he]
  exact ⟨List.mem_range.mp ha, List.mem_range.mp hb⟩

theorem opFold_total (f : Nat → Nat → Nat) (p : Piece) (i j : Int) (hgt wdt : Nat)
    (hrect : ∀ r ∈ p, r.length = (get_piece_height_width p).2)
    (hrows : ∀ a, a < p.length → (pyIdx hgt (i + a)).isSome = true)
    (hj0 : 0 ≤ j)
    (hjw : j + ((get_piece_height_width p).2 : Int) ≤ (wdt : Int)) :
    ∀ L F, F.length = hgt → (∀ r ∈ F, r.length = wdt) →
      (∀ ab ∈ L, ab.1 < p.length ∧ ab.2 < (get_piece_height_width p).2) →
      ∃ F', opFold f p i j L F = some F' ∧ F'.length = hgt ∧
        ∀ r ∈ F', r.length = wdt := by
  intro L
  induction L with
  | nil => intro F h1 h2 _; exact ⟨F, rfl, h1, h2⟩
  | cons ab L ih =>
    intro F h1 h2 hm
    obtain ⟨ha, hb⟩ := hm ab (List.mem_cons_self ab L)
    obtain ⟨v, hv⟩ := pGet_total p _ hrect ab.1 ab.2 ha hb
    have hj1 : 0 ≤ j + (ab.2 : Int) := by omega
    have hj2 : j + (ab.2 : Int) < (wdt : Int) := by omega
    obtain ⟨c, hc⟩ :=
      getCell_total F hgt wdt h1 h2 (i + ab.1) (j + ab.2) (hrows ab.1 ha) hj1 hj2
    obtain ⟨F1, hF1, e1, e2⟩ :=
      setCell_total F hgt wdt h1 h2 (i + ab.1) (j + ab.2) (f c v)
        (hrows ab.1 ha) hj1 hj2
    obtain ⟨F', hFold, g1, g2⟩ :=
      ih F1 e1 e2 (fun x hx => hm x (List.mem_cons_of_mem _ hx))
    refine ⟨F', ?_, g1, g2⟩
    unfold opFold
    rw [List.foldlM_cons]
    simp only [hv, hc, hF1, Option.bind_eq_bind, Option.some_bind]
    exact hFold

theorem goodPieceB_spec (p : Piece) (hg : goodPieceB p = true) :
    0 < p.length ∧
    (∀ r ∈ p, r.length = (p.headD []).length ∧ r.any (fun c => c ≠ 0) = true) ∧
    (∀ b, b < (p.headD []).length → ∃ r ∈ p, r.getD b 0 ≠ 0) := by
  unfold goodPieceB at hg
  simp only [Bool.and_eq_true, decide_eq_true_eq, List.all_eq_true, beq_iff_eq,
    List.any_eq_true, List.mem_range] at hg
  obtain ⟨⟨h1, h2⟩, h3⟩ := hg
  refine ⟨h1, fun r hr => ?_, fun b hb => ?_⟩
  · obtain ⟨e1, e2⟩ := h2 r hr
    refine ⟨e1, ?_⟩
    rw [List.any_eq_true]
    obtain ⟨x, hx, he⟩ := e2
    exact ⟨x, hx, by simpa using he⟩
  · obtain ⟨r, hr, he⟩ := h3 b hb
    exact ⟨r, hr, by simpa using he⟩

theorem minLen_foldl (pw : Nat) :
    ∀ rs : List (List Nat), (∀ x ∈ rs, x.length = pw) →
      rs.foldl (fun m x => min m x.length) pw = pw := by
  intro rs
  induction rs with
  | nil => intro _; rfl
  | cons x xs ih =>
    intro hmem
    rw [List.foldl_cons, hmem x (List.mem_cons_self x xs), Nat.min_self]
    exact ih fun y hy => hmem y (List.mem_cons_of_mem _ hy)

theorem minLen_of_rect (l : List (List Nat)) (pw : Nat) (hne : l ≠ [])
    (hrect : ∀ r ∈ l, r.length = pw) : minLen l = pw := by
  cases l with
  | nil => exact absurd rfl hne
  | cons r rs =>
    show rs.foldl (fun m x => min m x.length) r.length = pw
    rw [hrect r (List.mem_cons_self r rs)]
    exact minLen_foldl pw rs fun y hy => hrect y (List.mem_cons_of_mem _ hy)

theorem getD_map_ne (g : List Nat → Nat) (l : List (List Nat)) (n : Nat)
    (hn : n < l.length) : (l.map g).getD n 0 = g l[n] := by
  rw [List.getD_eq_getElem _ 0 (by simpa using hn), List.getElem_map]

theorem goodPieceB_rotate (p : Piece) (hg : goodPieceB p = true) :
    goodPieceB (piece_rotate p) = true := by
  obtain ⟨hne, hrows, hcols⟩ := goodPieceB_spec p hg
  have hp0 : p.headD [] ∈ p := by
    cases p with
    | nil => simp at hne
    | cons r rs => exact List.mem_cons_self r rs
  have hpw1 : 0 < (p.headD []).length := by
    obtain ⟨-, hany⟩ := hrows _ hp0
    rw [List.any_eq_true] at hany
    obtain ⟨x, hx, -⟩ := hany
    exact List.length_pos.mpr (List.ne_nil_of_mem hx)
  have hrev : ∀ r ∈ p.reverse, r.length = (p.headD []).length :=
    fun r hr => (hrows r (List.mem_reverse.mp hr)).1
  have hrevne : p.reverse ≠ [] := by
    cases p with
    | nil => simp at hne
    | cons r rs => simp
  have hrevlen : p.reverse.length = p.length := List.length_reverse ..
  have hmin : minLen p.reverse = (p.headD []).length :=
    minLen_of_rect _ _ hrevne hrev
  have hrot : piece_rotate p =
      (List.range (p.headD []).length).map
        (fun idx => p.reverse.map fun r => r.getD idx 0) := by
    unfold piece_rotate zipStar
    rw [hmin]
  have hrotlen : (piece_rotate p).length = (p.headD []).length := by
    rw [hrot, List.length_map, List.length_range]
  have hrothead : (piece_rotate p).headD [] = p.reverse.map fun r => r.getD 0 0 := by
    rw [hrot]
    obtain ⟨k, hk⟩ := Nat.exists_eq_succ_of_ne_zero (by omega : (p.headD []).length ≠ 0)
    rw [hk, List.range_succ_eq_map, List.map_cons]
    rfl
  have hrowlen : ∀ idx, (p.reverse.map fun r => r.getD idx 0).length = p.length := by
    intro idx
    rw [List.length_map, hrevlen]
  unfold goodPieceB
  simp only [Bool.and_eq_true, decide_eq_true_eq, List.all_eq_true, beq_iff_eq,
    List.any_eq_true, List.mem_range]
  refine ⟨⟨by omega, ?_⟩, ?_⟩
  · intro row hrow
    rw [hrot, List.mem_map] at hrow
    obtain ⟨idx, hidx, he⟩ := hrow
    rw [List.mem_range] at hidx
    constructor
    · rw [← he, hrothead, hrowlen, List.length_map, hrevlen]
    · obtain ⟨r, hr, hv⟩ := hcols idx hidx
      refine ⟨r.getD idx 0, ?_, by simpa using hv⟩
      rw [← he]
      exact List.mem_map.mpr ⟨r, List.mem_reverse.mpr hr, rfl⟩
  · intro b hb
    rw [hrothead, List.length_map, hrevlen] at hb
    have hbrev : b < p.reverse.length := by omega
    obtain ⟨-, hany⟩ := hrows (p.reverse[b]) (List.mem_reverse.mp (List.getElem_mem hbrev))
    rw [List.any_eq_true] at hany
    obtain ⟨x, hx, hxne⟩ := hany
    obtain ⟨ci, hci, hcx⟩ := List.mem_iff_getElem.mp hx
    have hcipw : ci < (p.headD []).length := by
      have := (hrows (p.reverse[b]) (List.mem_reverse.mp (List.getElem_mem hbrev))).1
      omega
    refine ⟨p.reverse.map fun r => r.getD ci 0, ?_, ?_⟩
    · rw [hrot]
      exact List.mem_map.mpr ⟨ci, List.mem_range.mpr hcipw, rfl⟩
    · rw [getD_map_ne _ _ b hbrev, List.getD_eq_getElem _ 0 (by omega), hcx]
      simpa using hxne

theorem pieces_good : ∀ p ∈ Pieces, goodPieceB p = true := by decide

theorem untouched_refl (s : TState) : Untouched s s :=
  ⟨rfl, rfl, rfl, rfl, rfl⟩

theorem untouched_trans {a b c : TState} (h1 : Untouched a b) (h2 : Untouched b c) :
    Untouched a c := by
  obtain ⟨e1, e2, e3, e4, e5⟩ := h1
  obtain ⟨f1, f2, f3, f4, f5⟩ := h2
  exact ⟨f1.trans e1, f2.trans e2, f3.trans e3, f4.trans e4, f5.trans e5⟩

theorem Placed_spec (s : TState) (hP : Placed s = true) :
    s.field.length = s.height ∧ (∀ r ∈ s.field, r.length = s.width) ∧
    goodPieceB s.current_piece.1 = true ∧
    (∀ a, a < s.current_piece.1.length →
      (pyIdx s.height (s.current_piece.2.1 + a)).isSome = true) ∧
    0 ≤ s.current_piece.2.2 ∧
    s.current_piece.2.2 +
      ((get_piece_height_width s.current_piece.1).2 : Int) ≤ (s.width : Int) := by
  unfold Placed at hP
  simp only [Bool.and_eq_true, beq_iff_eq, List.all_eq_true, decide_eq_true_eq,
    List.mem_range] at hP
  obtain ⟨⟨⟨⟨⟨h1, h2⟩, h3⟩, h4⟩, h5⟩, h6⟩ := hP
  exact ⟨h1, h2, h3, h4, h5, h6⟩

theorem Placed_intro (s : TState) (h1 : s.field.length = s.height)
    (h2 : ∀ r ∈ s.field, r.length = s.width)
    (h3 : goodPieceB s.current_piece.1 = true)
    (h4 : ∀ a, a < s.current_piece.1.length →
      (pyIdx s.height (s.current_piece.2.1 + a)).isSome = true)
    (h5 : 0 ≤ s.current_piece.2.2)
    (h6 : s.current_piece.2.2 +
      ((get_piece_height_width s.current_piece.1).2 : Int) ≤ (s.width : Int)) :
    Placed s = true := by
  unfold Placed
  simp only [Bool.and_eq_true, beq_iff_eq, List.all_eq_true, decide_eq_true_eq,
    List.mem_range]
  exact ⟨⟨⟨⟨⟨h1, h2⟩, h3⟩, h4⟩, h5⟩, h6⟩

theorem getCell_isSome_row (F : Field) (i j : Int) (c : Nat)
    (h : getCell F i j = some c) : (pyIdx F.length i).isSome = true := by
  unfold getCell at h
  cases hpy : pyIdx F.length i with
  | none => rw [hpy] at h; simp at h
  | some _ => rfl

theorem good_row_support (p' : Piece) (hg : goodPieceB p' = true) :
    ∀ a, a < p'.length → ∃ b v, b < (get_piece_height_width p').2 ∧
      pGet p' a b = some v ∧ v ≠ 0 := by
  obtain ⟨-, hrows, -⟩ := goodPieceB_spec _ hg
  intro a ha
  have hmem : p'[a] ∈ p' := List.getElem_mem ha
  obtain ⟨hlen, hany⟩ := hrows _ hmem
  rw [List.any_eq_true] at hany
  obtain ⟨x, hx, hxne⟩ := hany
  obtain ⟨b, hb, hbx⟩ := List.mem_iff_getElem.mp hx
  refine ⟨b, x, by unfold get_piece_height_width; omega, ?_, by simpa using hxne⟩
  unfold pGet
  rw [List.get?_eq_getElem?, List.getElem?_eq_getElem ha, Option.some_bind,
    List.get?_eq_getElem?, List.getElem?_eq_getElem hb, hbx]

theorem remove_p_total (s : TState) (hP : Placed s = true) :
    ∃ F1, remove_p s s.current_piece.1 s.current_piece.2.1 s.current_piece.2.2 =
        some { s with field := F1 } ∧
      F1.length = s.height ∧ ∀ r ∈ F1, r.length = s.width := by
  obtain ⟨h1, h2, hg, hrows, hj0, hjw⟩ := Placed_spec s hP
  obtain ⟨-, hrect, -⟩ := goodPieceB_spec _ hg
  obtain ⟨F1, hF1, e1, e2⟩ := opFold_total ldiff s.current_piece.1
      s.current_piece.2.1 s.current_piece.2.2 s.height s.width
      (fun r hr => (hrect r hr).1) hrows hj0 hjw
      (productList (get_piece_height_width s.current_piece.1).1
        (get_piece_height_width s.current_piece.1).2)
      s.field h1 h2 (productList_mem _ _)
  refine ⟨F1, ?_, e1, e2⟩
  unfold remove_p remove_write
  rw [hF1]
  rfl

theorem add_p_total (s : TState) (p' : Piece) (i' j' : Int)
    (hg : goodPieceB p' = true)
    (h1 : s.field.length = s.height) (h2 : ∀ r ∈ s.field, r.length = s.width) :
    ∃ tb, add_p s p' i' j' = some tb ∧
      tb.1.field.length = s.height ∧ (∀ r ∈ tb.1.field, r.length = s.width) ∧
      Untouched s tb.1 ∧
      tb.1.next_piece = s.next_piece ∧ tb.1.lines = s.lines ∧
      tb.1.level = s.level ∧ tb.1.drop_bonus = s.drop_bonus ∧
      tb.1.hoff = s.hoff ∧ tb.1.woff = s.woff ∧
      tb.1.landing_height = s.landing_height ∧
      (tb.2 = true → tb.1.current_piece = (p', i', j') ∧
        (∀ a, a < p'.length → (pyIdx s.height (i' + a)).isSome = true) ∧
        0 ≤ j' ∧ j' + ((get_piece_height_width p').2 : Int) ≤ (s.width : Int)) ∧
      (tb.2 = false → tb.1 = s) := by
  by_cases hc : add_check s.field s.width p' i' j'
  · obtain ⟨hcj0, hcjw, hcells⟩ := add_check_spec _ _ _ _ _ hc
    obtain ⟨-, hrect, -⟩ := goodPieceB_spec _ hg
    have haddr : ∀ a, a < p'.length → (pyIdx s.height (i' + a)).isSome = true := by
      intro a ha
      obtain ⟨b, v, hb, hv, hv0⟩ := good_row_support p' hg a ha
      have := hcells a b ha hb v hv hv0
      have hsome := getCell_isSome_row s.field (i' + a) (j' + b) 0 this
      rw [h1] at hsome
      exact hsome
    obtain ⟨F', hF', e1, e2⟩ := opFold_total Nat.lor p' i' j' s.height s.width
        (fun r hr => (hrect r hr).1) haddr hcj0 hcjw
        (productList (get_piece_height_width p').1 (get_piece_height_width p').2)
        s.field h1 h2 (productList_mem _ _)
    have hadd : add_p s p' i' j' =
        some ({ s with field := F', current_piece := (p', i', j') }, true) := by
      unfold add_p add_write
      rw [if_pos hc, hF']
      rfl
    exact ⟨_, hadd, e1, e2, ⟨rfl, rfl, rfl, rfl, rfl⟩, rfl, rfl, rfl, rfl, rfl, rfl,
      rfl, fun _ => ⟨rfl, haddr, hcj0, hcjw⟩, fun hb => Bool.noConfusion hb⟩
  · exact ⟨(s, false), by unfold add_p; rw [if_neg hc], h1, h2, untouched_refl s,
      rfl, rfl, rfl, rfl, rfl, rfl, rfl,
      fun hb => Bool.noConfusion hb, fun _ => rfl⟩

theorem row_lt_of_placed (s : TState) (hP : Placed s = true) :
    s.current_piece.2.1 < (s.height : Int) := by
  obtain ⟨-, -, hg, hrows, -, -⟩ := Placed_spec s hP
  obtain ⟨hlen0, -, -⟩ := goodPieceB_spec _ hg
  obtain ⟨ra, hra⟩ := Option.isSome_iff_exists.mp (hrows 0 hlen0)
  unfold pyIdx at hra
  split at hra
  case isTrue hc => omega
  case isFalse =>
    split at hra
    case isTrue hc =>
      have hh : (0 : Int) ≤ (s.height : Int) := by omega
      omega
    case isFalse => exact Option.noConfusion hra

theorem add_any_placed (s1 : TState) (hs1P : Placed s1 = true)
    (p : Piece) (i j : Int) (hg : goodPieceB p = true) :
    ∃ tb, add_p s1 p i j = some tb ∧ Placed tb.1 = true ∧ Untouched s1 tb.1 ∧
      (tb.2 = true → tb.1.current_piece = (p, i, j)) ∧
      (tb.2 = false → tb.1 = s1) := by
  obtain ⟨g1, g2, -, -, -, -⟩ := Placed_spec s1 hs1P
  obtain ⟨tb, hadd, f1, f2, hU, -, -, -, -, -, -, -, hsucc, hfail⟩ :=
    add_p_total s1 p i j hg g1 g2
  obtain ⟨u1, u2, u3, u4, u5⟩ := hU
  refine ⟨tb, hadd, ?_, ⟨u1, u2, u3, u4, u5⟩, (hsucc · |>.1), hfail⟩
  by_cases hb : tb.2
  · obtain ⟨hcur, haddr, hb0, hbw⟩ := hsucc hb
    refine Placed_intro tb.1 ?_ ?_ ?_ ?_ ?_ ?_
    · rw [f1, u1]
    · rw [u2]; exact f2
    · rw [hcur]; exact hg
    · rw [hcur, u1]; exact haddr
    · rw [hcur]; exact hb0
    · rw [hcur, u2]; exact hbw
  · rw [Bool.not_eq_true] at hb
    rw [hfail hb]
    exact hs1P

theorem remove_placed (s : TState) (hP : Placed s = true) :
    ∃ s1, remove_p s s.current_piece.1 s.current_piece.2.1 s.current_piece.2.2 =
        some s1 ∧ Placed s1 = true ∧ Untouched s s1 ∧
      s1.current_piece = s.current_piece := by
  obtain ⟨h1, h2, hgood, hrows, hj0, hjw⟩ := Placed_spec s hP
  obtain ⟨F1, hrem, e1, e2⟩ := remove_p_total s hP
  exact ⟨{ s with field := F1 }, hrem, Placed_intro _ e1 e2 hgood hrows hj0 hjw,
    ⟨rfl, rfl, rfl, rfl, rfl⟩, rfl⟩

theorem left_total (s : TState) (hP : Placed s = true) :
    ∃ tb, left s = some tb ∧ Placed tb.1 = true ∧ Untouched s tb.1 := by
  obtain ⟨-, -, hgood, -, -, -⟩ := Placed_spec s hP
  obtain ⟨s1, hrem, hs1P, hU1, -⟩ := remove_placed s hP
  obtain ⟨tb, hadd, hPtb, hUtb, -, -⟩ :=
    add_any_placed s1 hs1P s.current_piece.1 s.current_piece.2.1
      (s.current_piece.2.2 - 1) hgood
  by_cases hb : tb.2
  · refine ⟨(tb.1, true), ?_, hPtb, untouched_trans hU1 hUtb⟩
    unfold left
    dsimp only
    simp only [Option.bind_eq_bind]
    rw [hrem, Option.some_bind, hadd, Option.some_bind, if_pos hb]
    rfl
  · rw [Bool.not_eq_true] at hb
    obtain ⟨tb2, hadd2, hPtb2, hUtb2, -, -⟩ :=
      add_any_placed s1 hs1P s.current_piece.1 s.current_piece.2.1
        s.current_piece.2.2 hgood
    refine ⟨(tb2.1, false), ?_, hPtb2, untouched_trans hU1 hUtb2⟩
    unfold left
    dsimp only
    simp only [Option.bind_eq_bind]
    rw [hrem, Option.some_bind, hadd, Option.some_bind,
      if_neg (by simp [hb]), hadd2]
    rfl

theorem right_total (s : TState) (hP : Placed s = true) :
    ∃ tb, right s = some tb ∧ Placed tb.1 = true ∧ Untouched s tb.1 := by
  obtain ⟨-, -, hgood, -, -, -⟩ := Placed_spec s hP
  obtain ⟨s1, hrem, hs1P, hU1, -⟩ := remove_placed s hP
  obtain ⟨tb, hadd, hPtb, hUtb, -, -⟩ :=
    add_any_placed s1 hs1P s.current_piece.1 s.current_piece.2.1
      (s.current_piece.2.2 + 1) hgood
  by_cases hb : tb.2
  · refine ⟨(tb.1, true), ?_, hPtb, untouched_trans hU1 hUtb⟩
    unfold right
    dsimp only
    simp only [Option.bind_eq_bind]
    rw [hrem, Option.some_bind, hadd, Option.some_bind, if_pos hb]
    rfl
  · rw [Bool.not_eq_true] at hb
    obtain ⟨tb2, hadd2, hPtb2, hUtb2, -, -⟩ :=
      add_any_placed s1 hs1P s.current_piece.1 s.current_piece.2.1
        s.current_piece.2.2 hgood
    refine ⟨(tb2.1, false), ?_, hPtb2, untouched_trans hU1 hUtb2⟩
    unfold right
    dsimp only
    simp only [Option.bind_eq_bind]
    rw [hrem, Option.some_bind, hadd, Option.some_bind,
      if_neg (by simp [hb]), hadd2]
    rfl

theorem rotate_total (s : TState) (hP : Placed s = true) :
    ∃ tb, rotate s = some tb ∧ Placed tb.1 = true ∧ Untouched s tb.1 := by
  obtain ⟨-, -, hgood, -, -, -⟩ := Placed_spec s hP
  obtain ⟨s1, hrem, hs1P, hU1, -⟩ := remove_placed s hP
  obtain ⟨tb, hadd, hPtb, hUtb, -, -⟩ :=
    add_any_placed s1 hs1P (piece_rotate s.current_piece.1)
      (s.current_piece.2.1 + Int.fdiv
        (((get_piece_height_width s.current_piece.1).1 : Int) -
          ((get_piece_height_width (piece_rotate s.current_piece.1)).1 : Int) +
          ((s.hoff % 2 : Nat) : Int)) 2)
      (s.current_piece.2.2 + Int.fdiv
        (((get_piece_height_width s.current_piece.1).2 : Int) -
          ((get_piece_height_width (piece_rotate s.current_piece.1)).2 : Int) +
          ((s.woff % 2 : Nat) : Int)) 2)
      (goodPieceB_rotate _ hgood)
  by_cases hb : tb.2
  · refine ⟨({ tb.1 with
        hoff := tb.1.hoff +
          (get_piece_height_width (piece_rotate s.current_piece.1)).1 % 2,
        woff := tb.1.woff +
          (get_piece_height_width (piece_rotate s.current_piece.1)).2 % 2 },
      true), ?_, hPtb, untouched_trans hU1 hUtb⟩
    unfold rotate
    dsimp only
    simp only [Option.bind_eq_bind]
    rw [hrem, Option.some_bind, hadd, Option.some_bind, if_pos hb]
    rfl
  · rw [Bool.not_eq_true] at hb
    obtain ⟨tb2, hadd2, hPtb2, hUtb2, -, -⟩ :=
      add_any_placed s1 hs1P s.current_piece.1 s.current_piece.2.1
        s.current_piece.2.2 hgood
    refine ⟨(tb2.1, false), ?_, hPtb2, untouched_trans hU1 hUtb2⟩
    unfold rotate
    dsimp only
    simp only [Option.bind_eq_bind]
    rw [hrem, Option.some_bind, hadd, Option.some_bind,
      if_neg (by simp [hb]), hadd2]
    rfl

theorem tick_false_total (s : TState) (hP : Placed s = true) :
    ∃ tb, tick s false = some tb ∧ Placed tb.1 = true ∧ Untouched s tb.1 ∧
      (tb.2 = false → 0 < s.current_piece.2.1 ∧
        tb.1.current_piece =
          (s.current_piece.1, s.current_piece.2.1 - 1, s.current_piece.2.2)) := by
  by_cases hgt : s.current_piece.2.1 > 0
  · obtain ⟨-, -, hgood, -, -, -⟩ := Placed_spec s hP
    obtain ⟨s1, hrem, hs1P, hU1, -⟩ := remove_placed s hP
    obtain ⟨tb, hadd, hPtb, hUtb, hsucc, -⟩ :=
      add_any_placed s1 hs1P s.current_piece.1 (s.current_piece.2.1 - 1)
        s.current_piece.2.2 hgood
    by_cases hb : tb.2
    · refine ⟨(record_landing_height tb.1, false), ?_, hPtb,
        untouched_trans hU1 hUtb, fun _ => ⟨hgt, hsucc hb⟩⟩
      unfold tick
      dsimp only
      rw [if_pos hgt]
      simp only [Option.bind_eq_bind]
      rw [hrem, Option.some_bind, hadd, Option.some_bind, if_pos hb]
      rfl
    · rw [Bool.not_eq_true] at hb
      obtain ⟨tb2, hadd2, hPtb2, hUtb2, -, -⟩ :=
        add_any_placed s1 hs1P s.current_piece.1 s.current_piece.2.1
          s.current_piece.2.2 hgood
      refine ⟨(record_landing_height tb2.1, true), ?_, hPtb2,
        untouched_trans hU1 hUtb2, fun hc => absurd hc (by simp)⟩
      unfold tick
      dsimp only
      rw [if_pos hgt]
      simp only [Option.bind_eq_bind]
      rw [hrem, Option.some_bind, hadd, Option.some_bind,
        if_neg (by simp [hb]), hadd2, Option.some_bind]
      rfl
  · refine ⟨(s, true), ?_, hP, untouched_refl s, fun hc => absurd hc (by simp)⟩
    unfold tick
    dsimp only
    rw [if_neg hgt]
    rfl

theorem down_false_total (s : TState) (hP : Placed s = true) :
    ∃ tb, down s false = some tb ∧ Placed tb.1 = true ∧ Untouched s tb.1 ∧
      (tb.2 = false → 0 < s.current_piece.2.1 ∧
        tb.1.current_piece =
          (s.current_piece.1, s.current_piece.2.1 - 1, s.current_piece.2.2)) := by
  obtain ⟨tb, ht, hPtb, hU, hrow⟩ :=
    tick_false_total { s with drop_bonus := s.drop_bonus + 1 } hP
  exact ⟨tb, ht, hPtb, hU, hrow⟩

theorem hard_drop_total (fuel : Nat) : ∀ s : TState, Placed s = true →
    s.current_piece.2.1.toNat < fuel →
    ∃ t, hard_drop fuel s = some t ∧ Placed t = true ∧ Untouched s t := by
  induction fuel with
  | zero => intro s hP hlt; omega
  | succ k ih =>
    intro s hP hlt
    obtain ⟨tb, hdn, hPtb, hU, hrow⟩ := down_false_total s hP
    by_cases hb : tb.2
    · refine ⟨tb.1, ?_, hPtb, hU⟩
      unfold hard_drop
      rw [Option.bind_eq_bind, hdn, Option.some_bind, if_pos hb]
      rfl
    · rw [Bool.not_eq_true] at hb
      obtain ⟨hpos, hcur⟩ := hrow hb
      have hcur1 : tb.1.current_piece.2.1 = s.current_piece.2.1 - 1 := by
        rw [hcur]
      have hlt2 : tb.1.current_piece.2.1.toNat < k := by
        rw [hcur1]; omega
      obtain ⟨t, hrec, hPt, hU2⟩ := ih tb.1 hPtb hlt2
      refine ⟨t, ?_, hPt, untouched_trans hU hU2⟩
      unfold hard_drop
      rw [Option.bind_eq_bind, hdn, Option.some_bind, if_neg (by simp [hb])]
      exact hrec

theorem runRotates_total (n : Nat) : ∀ s : TState, Placed s = true →
    ∃ t, runRotates n s = some t ∧ Placed t = true ∧ Untouched s t := by
  induction n with
  | zero => intro s hP; exact ⟨s, rfl, hP, untouched_refl s⟩
  | succ k ih =>
    intro s hP
    obtain ⟨tb, hrot, hPtb, hU⟩ := rotate_total s hP
    obtain ⟨t, hrun, hPt, hU2⟩ := ih tb.1 hPtb
    refine ⟨t, ?_, hPt, untouched_trans hU hU2⟩
    unfold runRotates
    rw [hrot, Option.some_bind]
    exact hrun

theorem runLefts_total (n : Nat) : ∀ s : TState, Placed s = true →
    ∃ t, runLefts n s = some t ∧ Placed t = true ∧ Untouched s t := by
  induction n with
  | zero => intro s hP; exact ⟨s, rfl, hP, untouched_refl s⟩
  | succ k ih =>
    intro s hP
    obtain ⟨tb, hmv, hPtb, hU⟩ := left_total s hP
    obtain ⟨t, hrun, hPt, hU2⟩ := ih tb.1 hPtb
    refine ⟨t, ?_, hPt, untouched_trans hU hU2⟩
    unfold runLefts
    rw [hmv, Option.some_bind]
    exact hrun

theorem runRights_total (n : Nat) : ∀ s : TState, Placed s = true →
    ∃ t, runRights n s = some t ∧ Placed t = true ∧ Untouched s t := by
  induction n with
  | zero => intro s hP; exact ⟨s, rfl, hP, untouched_refl s⟩
  | succ k ih =>
    intro s hP
    obtain ⟨tb, hmv, hPtb, hU⟩ := right_total s hP
    obtain ⟨t, hrun, hPt, hU2⟩ := ih tb.1 hPtb
    refine ⟨t, ?_, hPt, untouched_trans hU hU2⟩
    unfold runRights
    rw [hmv, Option.some_bind]
    exact hrun

theorem foldlM_total {α β : Type} (f : β → α → Option β) (l : List α)
    (h : ∀ x ∈ l, ∀ acc, ∃ y, f acc x = some y) :
    ∀ acc, ∃ y, l.foldlM f acc = some y := by
  induction l with
  | nil => intro acc; exact ⟨acc, rfl⟩
  | cons a t ih =>
    intro acc
    obtain ⟨y, hy⟩ := h a (List.mem_cons_self a t) acc
    obtain ⟨z, hz⟩ := ih (fun x hx acc => h x (List.mem_cons_of_mem a hx) acc) y
    refine ⟨z, ?_⟩
    rw [List.foldlM_cons, hy, Option.bind_eq_bind, Option.some_bind]
    exact hz

theorem enum_fst_lt {α : Type} (l : List α) (x : Nat × α) (hx : x ∈ l.enum) :
    x.1 < l.length := by
  rw [List.enum_eq_zip_range] at hx
  have := (List.of_mem_zip hx).1
  simpa using this

theorem wellCount_total (height width : Nat) (data : List (List Nat))
    (hlen : data.length = width) (hw : 2 ≤ width) (ci : Nat) (col : List Nat)
    (hci : ci < width) :
    ∃ n, wellCount height width data ci col = some n := by
  unfold wellCount
  cases hstop : stopIdxAux height 0 col with
  | none => exact ⟨0, rfl⟩
  | some ridx =>
    dsimp only
    by_cases h0 : ci = 0
    · rw [if_pos h0, List.get?_eq_getElem?, List.getElem?_eq_getElem (by omega)]
      exact ⟨_, rfl⟩
    · rw [if_neg h0]
      by_cases h1 : ci = width - 1
      · rw [if_pos h1, List.get?_eq_getElem?, List.getElem?_eq_getElem (by omega)]
        exact ⟨_, rfl⟩
      · rw [if_neg h1, List.get?_eq_getElem?, List.getElem?_eq_getElem (by omega),
          Option.some_bind, List.get?_eq_getElem?,
          List.getElem?_eq_getElem (by omega)]
        exact ⟨_, rfl⟩

theorem get_well_sums_total (height width : Nat) (data : List (List Nat))
    (hlen : data.length = width) (hw : 2 ≤ width) :
    ∃ q, get_well_sums height width data = some q := by
  unfold get_well_sums
  refine foldlM_total _ _ ?_ 0
  intro x hx acc
  obtain ⟨n, hn⟩ := wellCount_total height width data hlen hw x.1 x.2
    (hlen ▸ enum_fst_lt data x hx)
  exact ⟨_, by rw [hn]; rfl⟩

theorem get_ai_score_total (s : TState) (hw2 : 2 ≤ s.width) :
    ∃ q, get_ai_score s = some q := by
  obtain ⟨ws, hws⟩ := get_well_sums_total s.height s.width (get_field_by_column s)
    (by simp [get_field_by_column]) hw2
  exact ⟨_, by unfold get_ai_score; dsimp only; rw [hws]; rfl⟩

theorem load_state_total (s t : TState) (hU : Untouched (save_state s) t) :
    ∃ sL, load_state t = some sL ∧ Untouched (save_state s) sL ∧
      sL.field = s.field ∧ sL.current_piece = s.current_piece ∧
      sL.height = s.height ∧ sL.width = s.width := by
  obtain ⟨u1, u2, u3, u4, u5⟩ := hU
  refine ⟨{ t with
      field := s.field, lines := s.lines, level := s.level,
      score := s.score, current_piece := s.current_piece,
      next_piece := s.next_piece, piece_index := s.piece_index,
      pieces_placed := s.pieces_placed, hoff := s.hoff, woff := s.woff,
      cleared := s.cleared, landing_height := s.landing_height,
      drop_bonus := s.drop_bonus, continues := s.continues },
    ?_, ⟨u1, u2, u3, u4, u5⟩, rfl, rfl, u1, u2⟩
  unfold load_state
  rw [u3]
  rfl

theorem placed_congr (s t : TState) (hf : t.field = s.field)
    (hc : t.current_piece = s.current_piece) (hh : t.height = s.height)
    (hw : t.width = s.width) (hP : Placed s = true) : Placed t = true := by
  obtain ⟨h1, h2, h3, h4, h5, h6⟩ := Placed_spec s hP
  refine Placed_intro t ?_ ?_ ?_ ?_ ?_ ?_
  · rw [hf, hh]; exact h1
  · rw [hf, hw]; exact h2
  · rw [hc]; exact h3
  · rw [hc, hh]; exact h4
  · rw [hc]; exact h5
  · rw [hc, hw]; exact h6

theorem trial_total (s : TState) (hP : Placed s = true) (hw2 : 2 ≤ s.width)
    (t : TState) (hU : Untouched (save_state s) t) (seq : Nat × Nat × Nat) :
    ∃ r, get_ai_score_for_moves t seq = some r ∧
      r.2.1 = buildMoves seq.1 seq.2.1 seq.2.2 ∧
      Untouched (save_state s) r.2.2 := by
  obtain ⟨sL, hload, hUL, hf, hc, hh, hw⟩ := load_state_total s t hU
  have hPL : Placed sL = true := placed_congr s sL hf hc hh hw hP
  obtain ⟨tb, hdn, hPtb, hU1, -⟩ := down_false_total sL hPL
  obtain ⟨s1, hrot, hP1, hU2⟩ := runRotates_total seq.1 tb.1 hPtb
  obtain ⟨s2, hlef, hP2, hU3⟩ := runLefts_total seq.2.1 s1 hP1
  obtain ⟨s3, hrig, hP3, hU4⟩ := runRights_total seq.2.2 s2 hP2
  have hfuel : s3.current_piece.2.1.toNat < s3.height + 1 := by
    have := row_lt_of_placed s3 hP3
    omega
  obtain ⟨s4, hdrop, hP4, hU5⟩ := hard_drop_total (s3.height + 1) s3 hP3 hfuel
  have hUall : Untouched (save_state s) s4 :=
    untouched_trans hUL (untouched_trans hU1 (untouched_trans hU2
      (untouched_trans hU3 (untouched_trans hU4 hU5))))
  have hw4 : 2 ≤ s4.width := by
    rw [hUall.2.1]
    exact hw2
  obtain ⟨q, hsc⟩ := get_ai_score_total s4 hw4
  refine ⟨(q, buildMoves seq.1 seq.2.1 seq.2.2, s4), ?_, rfl, hUall⟩
  unfold get_ai_score_for_moves
  simp only [Option.bind_eq_bind]
  rw [hload, Option.some_bind, hdn, Option.some_bind, hrot, Option.some_bind,
    hlef, Option.some_bind, hrig, Option.some_bind, hdrop, Option.some_bind,
    hsc, Option.some_bind]
  rfl

/-- C9 witness: the theorem at a fresh 20×10 engine with a constant
square-piece stream, before any operation. -/
theorem c9_witness :
    (init_state 20 10 fun _ => [[2, 2], [2, 2]]).level =
      min ((init_state 20 10 fun _ => [[2, 2], [2, 2]]).lines / 10)
        (Speeds.length - 1) ∧
    (init_state 20 10 fun _ => [[2, 2], [2, 2]]).level ≤ 19 ∧
    ∀ t, Step (init_state 20 10 fun _ => [[2, 2], [2, 2]]) t →
      (init_state 20 10 fun _ => [[2, 2], [2, 2]]).level ≤ t.level :=
  c9_level_invariant 20 10 (fun _ => [[2, 2], [2, 2]]) _ Relation.ReflTransGen.refl

/-! ## C10: the AI search never exhausts its candidates -/

theorem buildMoves_ne (rc lc rr : Nat) : buildMoves rc lc rr ≠ [] := by
  simp [buildMoves]

theorem dn_mem_buildMoves (rc lc rr : Nat) : Move.dn ∈ buildMoves rc lc rr := by
  simp [buildMoves]

theorem dropAll_mem_buildMoves (rc lc rr : Nat) :
    Move.dropAll ∈ buildMoves rc lc rr := by
  simp [buildMoves]

theorem pieces_width : ∀ p ∈ Pieces, 2 ≤ (get_piece_height_width p).2 := by
  decide

theorem movesToTry_total : ∀ p ∈ Pieces,
    (movesToTry p).isSome = true ∧ (movesToTry p).getD [] ≠ [] := by
  decide

theorem pickBest_snd_none (acc : Option ℚ × List Move) (sc : ℚ) (mv : List Move)
    (h : acc.1 = none) : (pickBest acc sc mv).2 = mv := by
  rcases acc with ⟨ob, ml⟩
  have h' : ob = none := h
  subst h'
  rfl

theorem pickBest_snd (acc : Option ℚ × List Move) (sc : ℚ) (mv : List Move) :
    (pickBest acc sc mv).2 = mv ∨ (pickBest acc sc mv).2 = acc.2 := by
  rcases acc with ⟨ob, ml⟩
  cases ob with
  | none => exact Or.inl rfl
  | some b =>
    unfold pickBest
    dsimp only
    split
    · exact Or.inl rfl
    · split
      · exact Or.inl rfl
      · exact Or.inr rfl

theorem trials_fold (s : TState) (hP : Placed s = true) (hw2 : 2 ≤ s.width) :
    ∀ (mt : List (Nat × Nat × Nat)) (a0 : (Option ℚ × List Move) × TState),
      Untouched (save_state s) a0.2 →
      (a0.1.1 = none ∧ a0.1.2 = [] ∨
        a0.1.2 ≠ [] ∧ Move.dn ∈ a0.1.2 ∧ Move.dropAll ∈ a0.1.2) →
      ∃ out, mt.foldlM
          (fun (acc : (Option ℚ × List Move) × TState) seq => do
            let r ← get_ai_score_for_moves acc.2 seq
            pure (pickBest acc.1 r.1 r.2.1, r.2.2)) a0 = some out ∧
        Untouched (save_state s) out.2 ∧
        ((mt ≠ [] ∨ a0.1.2 ≠ []) →
          out.1.2 ≠ [] ∧ Move.dn ∈ out.1.2 ∧ Move.dropAll ∈ out.1.2) := by
  intro mt
  induction mt with
  | nil =>
    intro a0 hU hinv
    refine ⟨a0, rfl, hU, ?_⟩
    intro h
    rcases h with h | h
    · exact absurd rfl h
    · rcases hinv with ⟨-, h2⟩ | h3
      · exact absurd h2 h
      · exact h3
  | cons seq rest ih =>
    intro a0 hU hinv
    obtain ⟨r, hr, hmv, hUr⟩ := trial_total s hP hw2 a0.2 hU seq
    have hgoodmv : r.2.1 ≠ [] ∧ Move.dn ∈ r.2.1 ∧ Move.dropAll ∈ r.2.1 := by
      rw [hmv]
      exact ⟨buildMoves_ne _ _ _, dn_mem_buildMoves _ _ _,
        dropAll_mem_buildMoves _ _ _⟩
    have hpick : (pickBest a0.1 r.1 r.2.1).2 ≠ [] ∧
        Move.dn ∈ (pickBest a0.1 r.1 r.2.1).2 ∧
        Move.dropAll ∈ (pickBest a0.1 r.1 r.2.1).2 := by
      rcases hinv with ⟨h1, -⟩ | h3
      · rw [pickBest_snd_none a0.1 r.1 r.2.1 h1]
        exact hgoodmv
      · rcases pickBest_snd a0.1 r.1 r.2.1 with he | he
        · rw [he]; exact hgoodmv
        · rw [he]; exact h3
    obtain ⟨out, hfold, hUout, hout⟩ :=
      ih (pickBest a0.1 r.1 r.2.1, r.2.2) hUr (Or.inr hpick)
    refine ⟨out, ?_, hUout, fun _ => hout (Or.inr hpick.1)⟩
    simp only [List.foldlM_cons, Option.bind_eq_bind, Option.pure_def]
    rw [hr, Option.some_bind, Option.some_bind]
    exact hfold

/-- C10: from any addressably placed state whose active piece is one of
the 7 canonical catalog shapes, the AI search is safe: the candidate
enumeration `movesToTry` succeeds and is nonempty, every candidate's
trial `get_ai_score_for_moves` (run here from the snapshot state) returns
a move list that contains the soft-drop `KEY_DOWN` and the final `DROP`
marker, and `ai_next_moves` returns a nonempty best move list containing
both — so the fatal `raise Exception("no best_score_moves")` branch,
modelled by the `none` result, is unreachable. -/
theorem c10_ai_search (s : TState) (hP : Placed s = true)
    (hcat : s.current_piece.1 ∈ Pieces) :
    ∃ mt, movesToTry s.current_piece.1 = some mt ∧ mt ≠ [] ∧
      (∀ seq ∈ mt, ∃ r, get_ai_score_for_moves (save_state s) seq = some r ∧
        r.2.1 ≠ [] ∧ Move.dn ∈ r.2.1 ∧ Move.dropAll ∈ r.2.1) ∧
      ∃ bm t, ai_next_moves s = some (bm, t) ∧ bm ≠ [] ∧
        Move.dn ∈ bm ∧ Move.dropAll ∈ bm := by
  have hw2 : 2 ≤ s.width := by
    obtain ⟨-, -, -, -, hj0, hjw⟩ := Placed_spec s hP
    have hpw := pieces_width _ hcat
    omega
  obtain ⟨hsome, hne⟩ := movesToTry_total _ hcat
  obtain ⟨mt, hmt⟩ := Option.isSome_iff_exists.mp hsome
  have hne' : mt ≠ [] := by
    rw [hmt] at hne
    simpa using hne
  refine ⟨mt, hmt, hne', ?_, ?_⟩
  · intro seq hseq
    obtain ⟨r, hr, hmv, -⟩ := trial_total s hP hw2 (save_state s)
      (untouched_refl _) seq
    refine ⟨r, hr, ?_⟩
    rw [hmv]
    exact ⟨buildMoves_ne _ _ _, dn_mem_buildMoves _ _ _,
      dropAll_mem_buildMoves _ _ _⟩
  · obtain ⟨out, hfold, hUout, hout⟩ := trials_fold s hP hw2 mt
      ((none, []), save_state s) (untouched_refl _) (Or.inl ⟨rfl, rfl⟩)
    have hgood := hout (Or.inl hne')
    obtain ⟨sL, hload, -, -, -, -, -⟩ := load_state_total s out.2 hUout
    refine ⟨out.1.2, sL, ?_, hgood.1, hgood.2.1, hgood.2.2⟩
    unfold ai_next_moves
    dsimp only
    simp only [Option.bind_eq_bind]
    have hmt' : movesToTry (save_state s).current_piece.1 = some mt := hmt
    simp only [Option.bind_eq_bind] at hfold
    rw [hmt', Option.some_bind, hfold, Option.some_bind, if_neg hgood.1, hload]
    rfl

/-- C10 witness: the theorem at the concrete 4×4 state `cexAI`, whose
active piece is the catalog square sitting on the floor. -/
theorem c10_witness :
    Placed cexAI = true ∧ cexAI.current_piece.1 ∈ Pieces ∧
    (∃ mt, movesToTry cexAI.current_piece.1 = some mt ∧ mt ≠ [] ∧
      (∀ seq ∈ mt, ∃ r, get_ai_score_for_moves (save_state cexAI) seq = some r ∧
        r.2.1 ≠ [] ∧ Move.dn ∈ r.2.1 ∧ Move.dropAll ∈ r.2.1) ∧
      ∃ bm t, ai_next_moves cexAI = some (bm, t) ∧ bm ≠ [] ∧
        Move.dn ∈ bm ∧ Move.dropAll ∈ bm) :=
  ⟨by decide, by decide, c10_ai_search cexAI (by decide) (by decide)⟩

end Tetrys
